import Mathlib

set_option maxRecDepth 8000

/-- One executable SQL statement together with its 1-based starting line,
mirroring the frozen dataclass SQLStmt of load/ddl.py. The statement text is
kept as a list of characters. -/
structure SQLStmt where
  sql : List Char
  start_line : Nat
  deriving DecidableEq, Repr

/-- The mutable scanner state of the single-pass character scanner inside
`_split_sql_statements` (load/ddl.py): the emitted statements so far, the
current buffer, the five mutually exclusive lexical states, the current line
counter, the recorded start line of the current buffer, and whether buffering
has started. -/
structure SplitState where
  out : List SQLStmt
  buf : List Char
  in_sq : Bool
  in_dq : Bool
  in_line_comment : Bool
  in_block_comment : Bool
  dollar_tag : Option (List Char)
  line : Nat
  stmt_start_line : Nat
  started : Bool
  deriving DecidableEq, Repr

/-- The initial scanner state: line counters start at 1, all lexical states
off, nothing buffered or emitted. -/
def initState : SplitState :=
  ⟨[], [], false, false, false, false, none, 1, 1, false⟩

/-- ASCII whitespace, the characters Python's str.strip() removes on the
inputs this development evaluates. -/
def wsChar (c : Char) : Bool :=
  c == ' ' || c == '\t' || c == '\n' || c == '\r' || c == '\x0b' || c == '\x0c'

/-- Remove the characters satisfying `p` from both ends of a list: the model
of Python's str.strip (with its optional character-set argument). -/
def stripBoth (p : Char → Bool) (l : List Char) : List Char :=
  ((l.dropWhile p).reverse.dropWhile p).reverse

/-- The local `flush()` closure of `_split_sql_statements`: strip the buffer,
emit it as a statement if it still holds something besides whitespace and
semicolons, clear the buffer and reset `started`. -/
def flushBuf (st : SplitState) : SplitState :=
  let s := stripBoth wsChar st.buf
  let keep := !s.isEmpty && !(stripBoth (fun c => c == ';') (stripBoth wsChar s)).isEmpty
  { st with
    out := if keep then st.out ++ [⟨s, st.stmt_start_line⟩] else st.out,
    buf := [],
    started := false }

/-- One iteration of the scanner loop of `_split_sql_statements`: consume the
character `c` (whose remaining input is `rest`), returning the new state and
the input left after this iteration (the loop consumes one character, except
for two-character tokens and dollar-quote tags). The branch order mirrors the
source: line counting and start-of-statement stamping first, then line
comment, block comment, interior of a dollar quote, comment openers, quotes,
dollar-quote opener, statement delimiter, and the default append. -/
def splitStep (st : SplitState) (c : Char) (rest : List Char) :
    SplitState × List Char :=
  let line := if c == '\n' then st.line + 1 else st.line
  let st := { st with
    line := line,
    stmt_start_line := if st.started then st.stmt_start_line else line,
    started := true }
  if st.in_line_comment then
    ({ st with buf := st.buf ++ [c], in_line_comment := c != '\n' }, rest)
  else if st.in_block_comment then
    if c == '*' && rest.head? == some '/' then
      ({ st with buf := st.buf ++ [c, '/'], in_block_comment := false }, rest.drop 1)
    else
      ({ st with buf := st.buf ++ [c] }, rest)
  else
    match st.dollar_tag with
    | some tag =>
      if c == '$' && tag.isPrefixOf (c :: rest) then
        ({ st with buf := (st.buf ++ [c]) ++ tag.drop 1, dollar_tag := none },
         (c :: rest).drop tag.length)
      else
        ({ st with buf := st.buf ++ [c] }, rest)
    | none =>
      if !st.in_sq && !st.in_dq && c == '-' && rest.head? == some '-' then
        ({ st with buf := st.buf ++ [c, '-'], in_line_comment := true }, rest.drop 1)
      else if !st.in_sq && !st.in_dq && c == '/' && rest.head? == some '*' then
        ({ st with buf := st.buf ++ [c, '*'], in_block_comment := true }, rest.drop 1)
      else if c == '\'' && !st.in_dq then
        if st.in_sq then
          if rest.head? == some '\'' then
            ({ st with buf := st.buf ++ [c, '\''] }, rest.drop 1)
          else
            ({ st with buf := st.buf ++ [c], in_sq := false }, rest)
        else
          ({ st with buf := st.buf ++ [c], in_sq := true }, rest)
      else if c == '"' && !st.in_sq then
        ({ st with buf := st.buf ++ [c], in_dq := !st.in_dq }, rest)
      else
        let identPart := rest.takeWhile (fun x => x.isAlphanum || x == '_')
        let afterIdent := rest.drop identPart.length
        if c == '$' && !st.in_sq && !st.in_dq && afterIdent.head? == some '$' then
          let tag := c :: (identPart ++ ['$'])
          ({ st with buf := st.buf ++ tag, dollar_tag := some tag }, afterIdent.drop 1)
        else if c == ';' && !st.in_sq && !st.in_dq then
          (flushBuf { st with buf := st.buf ++ [c] }, rest)
        else
          ({ st with buf := st.buf ++ [c] }, rest)

/-- The scanner loop, driven by fuel. Every iteration consumes at least one
input character, so fuel equal to the input length plus one never runs out. -/
def scanAux : Nat → SplitState → List Char → SplitState
  | 0, st, _ => st
  | _ + 1, st, [] => st
  | fuel + 1, st, c :: rest =>
    scanAux fuel (splitStep st c rest).1 (splitStep st c rest).2

/-- The statement splitter `_split_sql_statements` of load/ddl.py: strip the
byte-order mark, scan the whole input, and flush the remaining buffer. -/
def splitSqlStatements (sql : String) : List SQLStmt :=
  let cs := sql.toList.filter (fun c => c != '﻿')
  (flushBuf (scanAux (cs.length + 1) initState cs)).out

/-- Code-point lexicographic order on character lists: the order Python uses
to compare strings. -/
def charListLe : List Char → List Char → Bool
  | [], _ => true
  | _ :: _, [] => false
  | a :: as, b :: bs => if a == b then charListLe as bs else decide (a.toNat < b.toNat)

/-- Code-point lexicographic order on strings. -/
def strLe (a b : String) : Bool :=
  charListLe a.toList b.toList

/-- Insert a string into a sorted list, keeping it sorted (helper for the
model of Python's sorted()). -/
def insSorted (x : String) : List String → List String
  | [] => [x]
  | y :: ys => if strLe x y then x :: y :: ys else y :: insSorted x ys

/-- Insertion sort on strings: the model of Python's sorted() applied to a
set of column names. -/
def sortStrings (l : List String) : List String :=
  l.foldr insSorted []

/-- Keep the first occurrence of every element, dropping later duplicates:
the canonical list presentation of a Python set built from a list. -/
def dedupAux (seen : List String) : List String → List String
  | [] => []
  | x :: xs => if seen.contains x then dedupAux seen xs else x :: dedupAux (x :: seen) xs

/-- Deduplicate a list of strings, keeping first occurrences. -/
def dedupL (l : List String) : List String :=
  dedupAux [] l

/-- How a table is to be loaded (class LoadMode of load/load_strategy.py). -/
inductive LoadMode where
  | INSERT
  | SKIP
  deriving DecidableEq, Repr

/-- One destination table (dataclass TableSpec of load/load_strategy.py):
its Postgres name, the optional dict_df key, the names of the tables that
must load first, and the load mode. The preprocess hook carries no data the
plan algorithms observe and is omitted. -/
structure TableSpec where
  name : String
  df_key : Option String := none
  depends_on : List String := []
  mode : LoadMode := LoadMode.INSERT
  deriving DecidableEq, Repr

/-- TableSpec.key(): the dict_df key, defaulting to the table name. -/
def TableSpec.key (s : TableSpec) : String :=
  s.df_key.getD s.name

/-- The errors `_toposort` raises (class LoadPlanError): a dependency that
names no spec (with the spec that required it), or the leftover
name-to-unresolved-dependencies entries when a cycle blocks the sort. -/
inductive LoadPlanErr where
  | missingDep (dep requiredBy : String)
  | cycle (remaining : List (String × List String))
  deriving DecidableEq, Repr

/-- Insert-or-replace into an association list, keeping the original key
position on replacement: the model of a Python dict assignment. -/
def dictInsert {α : Type} (d : List (String × α)) (k : String) (v : α) :
    List (String × α) :=
  match d with
  | [] => [(k, v)]
  | (k0, v0) :: rest =>
    if k0 == k then (k0, v) :: rest else (k0, v0) :: dictInsert rest k v

/-- Build the by_name dict of `_toposort`. -/
def byNameDict (specs : List TableSpec) : List (String × TableSpec) :=
  specs.foldl (fun d s => dictInsert d s.name s) []

/-- The dependency-presence validation loop of `_toposort`: the first
(dependency, requiring spec) pair whose dependency is not a known name,
scanning specs and their depends_on lists in order. -/
def firstMissingDep (byName : List (String × TableSpec)) :
    List TableSpec → Option (String × String)
  | [] => none
  | s :: rest =>
    match s.depends_on.find? (fun d => (byName.lookup d).isNone) with
    | some d => some (d, s.name)
    | none => firstMissingDep byName rest

/-- The while loop of Kahn's algorithm in `_toposort`. The ready stack is
kept reversed (its head is the name Python's list.pop() would return); each
iteration orders one name, removes it from every incoming set, and pushes
the names whose incoming set just became empty. Fuel bounds the iterations;
one unit per ordered name never runs out. -/
def kahnLoop :
    Nat → List String → List String → List (String × List String) →
      List String × List (String × List String)
  | 0, _, orderedN, incoming => (orderedN, incoming)
  | _ + 1, [], orderedN, incoming => (orderedN, incoming)
  | fuel + 1, n :: ready, orderedN, incoming =>
    let newly :=
      (incoming.filter
        (fun p => p.2.contains n && (p.2.filter (fun x => x != n)).isEmpty)).map
        Prod.fst
    let incoming' := incoming.map (fun p => (p.1, p.2.filter (fun x => x != n)))
    kahnLoop fuel (newly.reverse ++ ready) (orderedN ++ [n]) incoming'

/-- `_toposort` of load/load_strategy.py: validate that every dependency
names a spec, run Kahn's algorithm, and either return the dependency-ordered
specs or report the unresolved remainder as a cycle. -/
def toposort (specs : List TableSpec) : Except LoadPlanErr (List TableSpec) :=
  let byName := byNameDict specs
  match firstMissingDep byName specs with
  | some (d, r) => .error (.missingDep d r)
  | none =>
    let incoming := specs.foldl (fun d s => dictInsert d s.name (dedupL s.depends_on)) []
    let ready0 := ((incoming.filter (fun p => p.2.isEmpty)).map Prod.fst).reverse
    let res := kahnLoop (specs.length + 1) ready0 [] incoming
    let ordered := res.1.filterMap (fun n => byName.lookup n)
    if ordered.length == specs.length then .ok ordered
    else .error (.cycle (res.2.filter (fun p => !p.2.isEmpty)))

/-- The frozen LoadPlan value: the given specs plus the order the
__post_init__ hook computes with `_toposort`. -/
structure LoadPlan where
  specs : List TableSpec
  order : List TableSpec
  deriving DecidableEq, Repr

/-- LoadPlan construction (LoadPlan.__post_init__): resolve the order with
`_toposort`, or fail with the error it raises. -/
def LoadPlan.build (specs : List TableSpec) : Except LoadPlanErr LoadPlan :=
  (toposort specs).map (fun ord => ⟨specs, ord⟩)

-- scratch

/-- Python's str.strip() on a string value: whitespace removed from both
ends (the column-name normalization of `_validate_and_align_df`). -/
def trimS (s : String) : String :=
  String.mk (stripBoth wsChar s.toList)

/-- Minimal live metadata of one destination column (dataclass ColumnMeta of
load/ddl.py). -/
structure ColumnMeta where
  name : String
  is_nullable : Bool
  has_default : Bool
  is_identity : Bool
  deriving DecidableEq, Repr

/-- The errors `_validate_and_align_df` (load/load.py) raises: target table
without columns, required columns absent from the dataset, or extra dataset
columns when dropping them is disallowed. Each error carries the schema and
table it names plus the sorted column names, as the Python messages do. -/
inductive ValErr where
  | tableMissing (schema table : String)
  | missingRequired (schema table : String) (cols : List String)
  | extraCols (schema table : String) (cols : List String)
  deriving DecidableEq, Repr

/-- The column-level content of `_validate_and_align_df` (load/load.py).
A dataframe is represented by its ordered column names; `meta` is the live
column metadata of `schema`.`table`. Returns the aligned column list: the
destination's column order restricted to the columns the dataset supplies.
The row values travel unchanged through the Python function, so columns are
the whole observable behavior modelled here. -/
def validateAndAlignCols (schema table : String) (meta : List ColumnMeta)
    (dfCols : List String) (drop_extra_columns : Bool) :
    Except ValErr (List String) :=
  if meta.isEmpty then .error (.tableMissing schema table)
  else
    let dfCols := dfCols.map (fun c => trimS c)
    let dbCols := meta.map (fun c => c.name)
    let required :=
      (meta.filter (fun c => !c.is_nullable && !c.has_default && !c.is_identity)).map
        (fun c => c.name)
    let missingRequired :=
      sortStrings (dedupL (required.filter (fun c => !dfCols.contains c)))
    if !missingRequired.isEmpty then
      .error (.missingRequired schema table missingRequired)
    else
      let extra := sortStrings (dedupL (dfCols.filter (fun c => !dbCols.contains c)))
      if !extra.isEmpty && !drop_extra_columns then
        .error (.extraCols schema table extra)
      else
        let dfCols2 :=
          if !extra.isEmpty then dfCols.filter (fun c => dbCols.contains c)
          else dfCols
        .ok (dbCols.filter (fun c => dfCols2.contains c))

/-- The schema routing `_schema_for_table` of load/load.py: event tables go
to the ingest schema, the audit log to the audit schema, everything else to
the core schema. -/
def schemaForTable (table core_schema ingest_schema audit_schema : String) :
    String :=
  if table == "ingest_events" || table == "entity_events" then ingest_schema
  else if table == "audit_log" then audit_schema
  else core_schema

/-- A dataset of the dict_df map, reduced to what the load path observes:
its ordered column names and its number of rows. -/
structure DFModel where
  cols : List String
  nrows : Nat
  deriving DecidableEq, Repr

/-- What one `_load_one` call (load/load.py) did when it did not raise. -/
inductive LoadOneOutcome where
  | skippedAbsent
  | skippedEmpty
  | skippedNoTable
  | written (schema table : String) (cols : List String) (rows : Nat)
  deriving DecidableEq, Repr

/-- The `_load_one` closure of load (load/load.py) for one table: missing or
empty datasets and missing tables are skipped; otherwise the dataset is
validated and aligned against the live metadata (which can raise), and only
then is the bulk insert reached, recorded here as a `written` outcome. The
null normalization touches values only, not columns, and is identity on this
model. -/
def loadOne (table : String) (dfOpt : Option DFModel) (tableExists : Bool)
    (meta : List ColumnMeta)
    (core_schema ingest_schema audit_schema : String)
    (drop_extra_columns : Bool) : Except ValErr LoadOneOutcome :=
  match dfOpt with
  | none => .ok .skippedAbsent
  | some df =>
    if df.nrows == 0 then .ok .skippedEmpty
    else
      let schema := schemaForTable table core_schema ingest_schema audit_schema
      if !tableExists then .ok .skippedNoTable
      else
        match validateAndAlignCols schema table meta df.cols drop_extra_columns with
        | .error e => .error e
        | .ok cols => .ok (.written schema table cols df.nrows)

-- scratch

/-- One observable action of DDLRunner._run_file (load/ddl.py) against the
connection: savepoint management, statement execution (with the escaped
text), the file-level commit, and the log lines that carry the diagnostic
fields (file name, 1-based statement index, starting line). -/
inductive DBEvent where
  | savepoint (name : String)
  | exec (sql : List Char)
  | release (name : String)
  | rollbackTo (name : String)
  | commit
  | logSkipMeta (file : String) (idx : Nat) (line : Nat)
  | logContinue (file : String) (idx : Nat) (line : Nat)
  | logError (file : String) (idx : Nat) (line : Nat)
  deriving DecidableEq, Repr

/-- Double every percent sign: the `stmt_clean.replace("%", "%%")` escaping
`_run_file` applies before executing a statement. -/
def pctEscape (s : List Char) : List Char :=
  s.flatMap (fun c => if c == '%' then ['%', '%'] else [c])

/-- The savepoint name `sp_{idx}` used per statement. -/
def spName (idx : Nat) : String :=
  "sp_" ++ toString idx

/-- The statement loop of DDLRunner._run_file, from statement index `idx`
on. `oracle` tells whether the database executes a given statement text
successfully; savepoint commands themselves are taken to succeed. Returns
the trace of connection events and whether the loop re-raised a statement
error (abort-on-error policy only). -/
def runStmtsFrom (file : String) (oracle : List Char → Bool)
    (fail_fast is_autocommit : Bool) (idx : Nat) :
    List SQLStmt → List DBEvent × Bool
  | [] => ([], false)
  | st :: stmts =>
    let next := runStmtsFrom file oracle fail_fast is_autocommit (idx + 1) stmts
    let stmtClean := stripBoth wsChar st.sql
    if stmtClean.isEmpty then next
    else if stmtClean.head? == some '\\' then
      (.logSkipMeta file idx st.start_line :: next.1, next.2)
    else
      let sql := pctEscape stmtClean
      if !fail_fast && !is_autocommit then
        let sp := spName idx
        if oracle sql then
          (.savepoint sp :: .exec sql :: .release sp :: next.1, next.2)
        else
          (.savepoint sp :: .exec sql :: .rollbackTo sp :: .release sp ::
            .logContinue file idx st.start_line :: next.1, next.2)
      else
        if oracle sql then (.exec sql :: next.1, next.2)
        else ([.exec sql, .logError file idx st.start_line], true)

/-- DDLRunner._run_file on an already split statement list: an empty list is
skipped without touching the connection; otherwise the statement loop runs
and, unless an error was re-raised or autocommit is on, the file-level
transaction commits. -/
def runFile (file : String) (stmts : List SQLStmt) (oracle : List Char → Bool)
    (fail_fast is_autocommit : Bool) : List DBEvent × Bool :=
  if stmts.isEmpty then ([], false)
  else
    let r := runStmtsFrom file oracle fail_fast is_autocommit 1 stmts
    if r.2 then r
    else if !is_autocommit then (r.1 ++ [.commit], false)
    else r

/-- The pre-DDL script list DEFAULT_PRE_DDL_FILES of load/load.py. -/
def DEFAULT_PRE_DDL_FILES : List String :=
  ["01_schema.sql", "02_tables.sql", "03_constraints.sql"]

/-- The post-DDL script list DEFAULT_POST_DDL_FILES of load/load.py, in the
order `load` passes it to run_sql_files. -/
def DEFAULT_POST_DDL_FILES : List String :=
  ["04_foreign_keys.sql", "05_indexes.sql", "06_comments.sql", "07_triggers.sql"]

/-- The post-DDL phase of load (load/load.py): the DDL-only short circuit
returns before it, and otherwise the post-DDL scripts run exactly when full
DDL ran in this cycle, in the DEFAULT_POST_DDL_FILES order. Returns the
script file names executed, in execution order. -/
def postDdlFilesRun (ddl_needed ddl_only : Bool) : List String :=
  if ddl_only then []
  else if ddl_needed then DEFAULT_POST_DDL_FILES
  else []

/-- The summary record LoadResult of load/load.py; rows_by_table is the
insertion-ordered dict keyed by qualified table name. -/
structure LoadResult where
  tables_loaded : Nat
  rows_loaded : Nat
  rows_by_table : List (String × Nat)
  deriving DecidableEq, Repr

/-- Sum of the values of a rows_by_table dict. -/
def sumVals (d : List (String × Nat)) : Nat :=
  (d.map Prod.snd).sum

/-- How load (load/load.py) produces its LoadResult: the DDL-only short
circuit returns the empty result, and otherwise each successful table write
(schema, table, row count), in order, stores its count in rows_by_table
under the qualified name (a Python dict assignment, so a repeated key keeps
one entry with the last count), and the final result is assembled as
LoadResult(len(rows_by_table), sum(rows_by_table.values()), rows_by_table). -/
def loadResultOf (ddl_only : Bool) (writes : List (String × String × Nat)) :
    LoadResult :=
  if ddl_only then ⟨0, 0, []⟩
  else
    let rows := writes.foldl
      (fun d w => dictInsert d (w.1 ++ "." ++ w.2.1) w.2.2) []
    ⟨rows.length, sumVals rows, rows⟩

/-- The scanner state after consuming m leading newline characters of an
input that begins with at least one: nothing emitted, the newlines buffered,
the line counter at m + 1 and the statement start stamped at line 2 (the
counter had already been incremented when the first character was seen). -/
def nlSt (m : Nat) : SplitState :=
  ⟨[], List.replicate m '\n', false, false, false, false, none, m + 1, 2, true⟩

/-- A character the scanner treats generically: it opens or closes nothing
and is simply appended to the buffer. -/
def plainChar (c : Char) : Bool :=
  !(c == '\n') && !(c == '-') && !(c == '/') && !(c == '\'') && !(c == '"') &&
    !(c == '$') && !(c == ';')

/-- The dependency edge of a spec collection: `a` depends on `b`. -/
def depEdge (specs : List TableSpec) (a b : String) : Prop :=
  ∃ s ∈ specs, s.name = a ∧ b ∈ s.depends_on

/-- The deduplicated dependency list of the spec named n (the incoming set
`_toposort` starts from), empty for unknown names. -/
def origDeps (specs : List TableSpec) (n : String) : List String :=
  ((specs.find? (fun s => s.name == n)).map (fun s => dedupL s.depends_on)).getD []

/-- The incoming map of Kahn's algorithm after the names in `ord` have been
ordered: each spec's deduplicated dependency set with the ordered names
removed (a proof-side characterization of the loop state). -/
def incomingOf (specs : List TableSpec) (ord : List String) :
    List (String × List String) :=
  specs.map (fun s =>
    (s.name, (dedupL s.depends_on).filter (fun x => !(ord.contains x))))

-- scratch tests

/-- C10: every LoadResult a load run returns is internally consistent:
rows_loaded is the sum of rows_by_table's values and tables_loaded its
number of entries, and the DDL-only short circuit returns 0/0/empty. -/
theorem loadResult_internally_consistent (ddl_only : Bool)
    (writes : List (String × String × Nat)) :
    (loadResultOf ddl_only writes).rows_loaded =
        sumVals (loadResultOf ddl_only writes).rows_by_table ∧
      (loadResultOf ddl_only writes).tables_loaded =
        (loadResultOf ddl_only writes).rows_by_table.length ∧
      loadResultOf true writes = ⟨0, 0, []⟩ := by
  cases ddl_only <;> simp [loadResultOf, sumVals]

/-- C9: what the post-DDL pass actually executes when full DDL ran and
ddl_only is not set: the foreign-keys script runs first, then indexes,
comments and triggers, contradicting the claimed
indexes-before-foreign-keys order (which matches load()'s own docstring). -/
theorem post_ddl_order_fk_before_indexes :
    postDdlFilesRun true false =
        ["04_foreign_keys.sql", "05_indexes.sql", "06_comments.sql",
          "07_triggers.sql"] ∧
      postDdlFilesRun true false ≠
        ["05_indexes.sql", "04_foreign_keys.sql", "06_comments.sql",
          "07_triggers.sql"] := by
  refine ⟨rfl, ?_⟩
  intro h
  exact absurd (congrArg (fun l => l.head?) h) (by decide)

/-- C1: a comment-only input does NOT yield an empty statement list: the
scanner buffers comment text and flush only strips whitespace and
semicolons, so the comment itself is emitted as a statement (contradicting
the docstring's promise of comment-free statements and the spec's
zero-statement edge case). Empty and whitespace/semicolon-only inputs do
yield no statements. -/
theorem comment_only_input_emits_statement :
    splitSqlStatements "-- only a comment\n" =
        [⟨"-- only a comment".toList, 1⟩] ∧
      splitSqlStatements "-- only a comment\n" ≠ [] ∧
      splitSqlStatements "/* just a block comment */" =
        [⟨"/* just a block comment */".toList, 1⟩] ∧
      splitSqlStatements "" = [] ∧
      splitSqlStatements "  \n ;; \n" = [] := by
  refine ⟨rfl, ?_, rfl, rfl, rfl⟩
  intro h
  exact absurd (congrArg List.length h) (by decide)

/-- C3 counterexample: with two leading blank lines, the first emitted
statement reports start line 2, not line 3 where its text begins (the claim
predicts [3, 3] for the two statements; the code yields [2, 3]). -/
theorem split_leading_blanks_counterexample :
    (splitSqlStatements "\n\nSELECT 1; SELECT 2;").map SQLStmt.start_line =
        [2, 3] ∧
      (splitSqlStatements "\n\nSELECT 1; SELECT 2;").map SQLStmt.start_line ≠
        [3, 3] := by
  refine ⟨by decide, by decide⟩

/-- C2: a semicolon consumed while the scanner is inside a single-quoted
string, a double-quoted identifier, a line comment, a block comment, or a
dollar-quoted block never emits a statement boundary: the scanner step
leaves the emitted list unchanged (it just buffers the semicolon) and
consumes exactly that character. Concrete whole-input checks for the five
protected contexts follow. -/
theorem semicolon_in_protected_context_not_boundary :
    (∀ (st : SplitState) (rest : List Char),
        st.in_sq = true ∨ st.in_dq = true ∨ st.in_line_comment = true ∨
          st.in_block_comment = true ∨ st.dollar_tag ≠ none →
        (splitStep st ';' rest).1.out = st.out ∧ (splitStep st ';' rest).2 = rest) ∧
      (splitSqlStatements "SELECT 'a;b';").length = 1 ∧
      (splitSqlStatements "SELECT \"a;b\";").length = 1 ∧
      (splitSqlStatements "SELECT 1 -- c;d\n;").length = 1 ∧
      (splitSqlStatements "/* x;y */ SELECT 1;").length = 1 ∧
      (splitSqlStatements "DO $tag$ x; y $tag$;").length = 1 := by
  refine ⟨?_, by decide, by decide, by decide, by decide, by decide⟩
  rintro ⟨out, buf, sq, dq, lc, bc, dt, line, ssl, started⟩ rest h
  cases lc <;> cases bc <;> cases dt <;> cases sq <;> cases dq <;>
    simp_all [splitStep]

/-- Witness for the step half of the semicolon-protection theorem, at a
concrete in-single-quote state. -/
theorem semicolon_in_protected_context_not_boundary_witness :
    (splitStep ⟨[], ['\''], true, false, false, false, none, 1, 1, true⟩ ';'
          []).1.out = [] ∧
      (splitStep ⟨[], ['\''], true, false, false, false, none, 1, 1, true⟩ ';'
          []).2 = [] :=
  semicolon_in_protected_context_not_boundary.1
    ⟨[], ['\''], true, false, false, false, none, 1, 1, true⟩ [] (Or.inl rfl)

/-- Unfolding rule of the scanner loop at nonzero fuel on a cons cell. -/
theorem scanAux_succ_cons (f : Nat) (st : SplitState) (c : Char)
    (rest : List Char) :
    scanAux (f + 1) st (c :: rest) =
      scanAux f (splitStep st c rest).1 (splitStep st c rest).2 := rfl

/-- A scanner step on a plain character just appends it to the buffer,
stamping the start line when buffering (re)starts. -/
theorem plainStep (st : SplitState) (c : Char) (rest : List Char)
    (hlc : st.in_line_comment = false) (hbc : st.in_block_comment = false)
    (hdt : st.dollar_tag = none) (hsq : st.in_sq = false)
    (hdq : st.in_dq = false) (hp : plainChar c = true) :
    splitStep st c rest =
      ({ st with
          stmt_start_line := if st.started then st.stmt_start_line else st.line,
          started := true,
          buf := st.buf ++ [c] }, rest) := by
  simp only [plainChar, Bool.and_eq_true, Bool.not_eq_true'] at hp
  obtain ⟨⟨⟨⟨⟨⟨h1, h2⟩, h3⟩, h4⟩, h5⟩, h6⟩, h7⟩ := hp
  obtain ⟨out, buf, sq, dq, lc, bc, dt, line, ssl, started⟩ := st
  simp only at hlc hbc hdt hsq hdq
  subst hlc hbc hdt hsq hdq
  simp [splitStep, h1, h2, h3, h4, h5, h6, h7]

/-- A scanner step on an unprotected semicolon flushes the buffer (with the
semicolon appended) and consumes one character. -/
theorem semiStep (st : SplitState) (rest : List Char)
    (hlc : st.in_line_comment = false) (hbc : st.in_block_comment = false)
    (hdt : st.dollar_tag = none) (hsq : st.in_sq = false)
    (hdq : st.in_dq = false) :
    splitStep st ';' rest =
      (flushBuf { st with
          stmt_start_line := if st.started then st.stmt_start_line else st.line,
          started := true,
          buf := st.buf ++ [';'] }, rest) := by
  obtain ⟨out, buf, sq, dq, lc, bc, dt, line, ssl, started⟩ := st
  simp only at hlc hbc hdt hsq hdq
  subst hlc hbc hdt hsq hdq
  simp [splitStep]

/-- Scanning a segment of plain characters from a normal, already started
state appends the segment to the buffer and uses one fuel per character. -/
theorem scan_plain_seg (cs : List Char) (h : ∀ c ∈ cs, plainChar c = true) :
    ∀ (f : Nat) (st : SplitState) (rest : List Char),
      st.in_line_comment = false → st.in_block_comment = false →
      st.dollar_tag = none → st.in_sq = false → st.in_dq = false →
      st.started = true →
      scanAux (cs.length + f) st (cs ++ rest) =
        scanAux f { st with buf := st.buf ++ cs } rest := by
  induction cs with
  | nil =>
    intro f st rest _ _ _ _ _ _
    simp
  | cons c cs ih =>
    intro f st rest hlc hbc hdt hsq hdq hst
    have hc : plainChar c = true := h c (List.mem_cons_self c cs)
    have hlen : (c :: cs).length + f = (cs.length + f) + 1 := by
      simp [List.length_cons]; omega
    rw [List.cons_append, hlen, scanAux_succ_cons,
      plainStep st c (cs ++ rest) hlc hbc hdt hsq hdq hc]
    dsimp only
    rw [ih (fun x hx => h x (List.mem_cons_of_mem c hx)) f
      { st with
        stmt_start_line := if st.started then st.stmt_start_line else st.line,
        started := true,
        buf := st.buf ++ [c] } rest hlc hbc hdt hsq hdq rfl]
    obtain ⟨out, buf, sq, dq, lc, bc, dt, line, ssl, started⟩ := st
    simp only at hst
    subst hst
    simp

/-- A scanner step on a newline from the after-m-newlines state just counts
the line and buffers the newline. -/
theorem nlStep (m : Nat) (rest : List Char) :
    splitStep (nlSt m) '\n' rest = (nlSt (m + 1), rest) := by
  have h1 : splitStep (nlSt m) '\n' rest =
      (⟨[], List.replicate m '\n' ++ ['\n'], false, false, false, false, none,
        m + 2, 2, true⟩, rest) := rfl
  rw [h1, show List.replicate m '\n' ++ ['\n'] = List.replicate (m + 1) '\n'
    from (List.replicate_succ' m '\n').symm]
  rfl

/-- Scanning k further newlines from the after-m-newlines state lands in the
after-(m+k)-newlines state, one fuel per character. -/
theorem scan_replicate_nl (k : Nat) :
    ∀ (m f : Nat) (rest : List Char),
      scanAux (k + f) (nlSt m) (List.replicate k '\n' ++ rest) =
        scanAux f (nlSt (m + k)) rest := by
  induction k with
  | zero =>
    intro m f rest
    simp
  | succ k ih =>
    intro m f rest
    rw [List.replicate_succ, List.cons_append,
      show k + 1 + f = (k + f) + 1 by omega, scanAux_succ_cons, nlStep]
    dsimp only
    rw [ih (m + 1) f rest, show m + 1 + k = m + (k + 1) by omega]

/-- Filtering with a disequality test is the identity when the excluded
character does not occur (the BOM strip on BOM-free input). -/
theorem filter_bne_of_not_mem (b : Char) (l : List Char) (h : b ∉ l) :
    l.filter (fun c => c != b) = l := by
  induction l with
  | nil => rfl
  | cons x xs ih =>
    simp only [List.mem_cons, not_or] at h
    simp [List.filter_cons, bne_iff_ne, Ne.symm, h.1, ih h.2]

/-- Dropping leading whitespace ignores a block of leading newlines. -/
theorem dropWhile_ws_replicate (m : Nat) (l : List Char) :
    (List.replicate m '\n' ++ l).dropWhile wsChar = l.dropWhile wsChar := by
  induction m with
  | zero => simp
  | succ m ih =>
    rw [List.replicate_succ, List.cons_append,
      List.dropWhile_cons_of_pos (by rfl), ih]

/-- Stripping whitespace ignores a block of leading newlines. -/
theorem stripBoth_ws_replicate (m : Nat) (l : List Char) :
    stripBoth wsChar (List.replicate m '\n' ++ l) = stripBoth wsChar l := by
  unfold stripBoth
  rw [dropWhile_ws_replicate]

/-- Flushing ignores a block of leading newlines in the buffer: they are
stripped either way. -/
theorem flushBuf_replicate_nl (m : Nat) (out : List SQLStmt) (l : List Char)
    (sq dq lc bc : Bool) (dt : Option (List Char)) (line ssl : Nat) (b : Bool) :
    flushBuf ⟨out, List.replicate m '\n' ++ l, sq, dq, lc, bc, dt, line, ssl, b⟩ =
      flushBuf ⟨out, l, sq, dq, lc, bc, dt, line, ssl, b⟩ := by
  unfold flushBuf
  simp only [stripBoth_ws_replicate]

/-- Scanning the 19 characters of "SELECT 1; SELECT 2;" from the
after-m-newlines state: the first statement flushes with the stamped start
line 2, the second with the current line m + 1. -/
theorem scan_suffix (m : Nat) :
    scanAux 20 (nlSt m) ("SELECT 1; SELECT 2;".toList) =
      ⟨[⟨"SELECT 1;".toList, 2⟩, ⟨"SELECT 2;".toList, m + 1⟩], [], false, false,
        false, false, none, m + 1, m + 1, false⟩ := by
  have h1 : scanAux 20 (nlSt m) ("SELECT 1; SELECT 2;".toList) =
      scanAux 12 ⟨[], List.replicate m '\n' ++ "SELECT 1".toList, false, false,
        false, false, none, m + 1, 2, true⟩ ("; SELECT 2;".toList) :=
    scan_plain_seg "SELECT 1".toList (by decide) 12 (nlSt m)
      ("; SELECT 2;".toList) rfl rfl rfl rfl rfl rfl
  have h2 : scanAux 12 ⟨[], List.replicate m '\n' ++ "SELECT 1".toList, false,
        false, false, false, none, m + 1, 2, true⟩ ("; SELECT 2;".toList) =
      scanAux 11
        (flushBuf ⟨[], (List.replicate m '\n' ++ "SELECT 1".toList) ++ [';'],
          false, false, false, false, none, m + 1, 2, true⟩)
        (" SELECT 2;".toList) := by
    rw [show ("; SELECT 2;".toList : List Char) = ';' :: " SELECT 2;".toList
        from rfl,
      show (12 : Nat) = 11 + 1 from rfl, scanAux_succ_cons,
      semiStep ⟨[], List.replicate m '\n' ++ "SELECT 1".toList, false, false,
        false, false, none, m + 1, 2, true⟩ (" SELECT 2;".toList) rfl rfl rfl
        rfl rfl]
    rfl
  have h3 : flushBuf ⟨[], (List.replicate m '\n' ++ "SELECT 1".toList) ++ [';'],
        false, false, false, false, none, m + 1, 2, true⟩ =
      ⟨[⟨"SELECT 1;".toList, 2⟩], [], false, false, false, false, none, m + 1,
        2, false⟩ := by
    rw [List.append_assoc,
      show ("SELECT 1".toList ++ [';'] : List Char) = "SELECT 1;".toList
        from rfl,
      flushBuf_replicate_nl]
    rfl
  have h4 : scanAux 11 ⟨[⟨"SELECT 1;".toList, 2⟩], [], false, false, false,
        false, none, m + 1, 2, false⟩ (" SELECT 2;".toList) =
      scanAux 10 ⟨[⟨"SELECT 1;".toList, 2⟩], [' '], false, false, false, false,
        none, m + 1, m + 1, true⟩ ("SELECT 2;".toList) := by
    rw [show (" SELECT 2;".toList : List Char) = ' ' :: "SELECT 2;".toList
        from rfl,
      show (11 : Nat) = 10 + 1 from rfl, scanAux_succ_cons,
      plainStep ⟨[⟨"SELECT 1;".toList, 2⟩], [], false, false, false, false,
        none, m + 1, 2, false⟩ ' ' ("SELECT 2;".toList) rfl rfl rfl rfl rfl
        (by decide)]
    rfl
  have h5 : scanAux 10 ⟨[⟨"SELECT 1;".toList, 2⟩], [' '], false, false, false,
        false, none, m + 1, m + 1, true⟩ ("SELECT 2;".toList) =
      scanAux 2 ⟨[⟨"SELECT 1;".toList, 2⟩], " SELECT 2".toList, false, false,
        false, false, none, m + 1, m + 1, true⟩ [';'] :=
    scan_plain_seg "SELECT 2".toList (by decide) 2
      ⟨[⟨"SELECT 1;".toList, 2⟩], [' '], false, false, false, false, none,
        m + 1, m + 1, true⟩ [';'] rfl rfl rfl rfl rfl rfl
  have h6 : scanAux 2 ⟨[⟨"SELECT 1;".toList, 2⟩], " SELECT 2".toList, false,
        false, false, false, none, m + 1, m + 1, true⟩ [';'] =
      scanAux 1
        (flushBuf ⟨[⟨"SELECT 1;".toList, 2⟩], " SELECT 2;".toList, false, false,
          false, false, none, m + 1, m + 1, true⟩) [] := by
    rw [show ([';'] : List Char) = ';' :: [] from rfl,
      show (2 : Nat) = 1 + 1 from rfl, scanAux_succ_cons,
      semiStep ⟨[⟨"SELECT 1;".toList, 2⟩], " SELECT 2".toList, false, false,
        false, false, none, m + 1, m + 1, true⟩ [] rfl rfl rfl rfl rfl]
    rfl
  have h7 : flushBuf ⟨[⟨"SELECT 1;".toList, 2⟩], " SELECT 2;".toList, false,
        false, false, false, none, m + 1, m + 1, true⟩ =
      ⟨[⟨"SELECT 1;".toList, 2⟩, ⟨"SELECT 2;".toList, m + 1⟩], [], false, false,
        false, false, none, m + 1, m + 1, false⟩ := rfl
  rw [h1, h2, h3, h4, h5, h6, h7]
  rfl

/-- C3 amended: splitting "SELECT 1; SELECT 2;" preceded by k newline
characters yields exactly two statements; the second reports line k + 1, but
the first reports line min(k, 1) + 1 — the line counter recorded when its
buffering started at the first (whitespace) character, whose own newline had
already been counted — so for k at least 2 it reports 2, not k + 1. -/
theorem split_two_selects_after_blank_lines (k : Nat) :
    splitSqlStatements
        (String.mk (List.replicate k '\n' ++ "SELECT 1; SELECT 2;".toList)) =
      [⟨"SELECT 1;".toList, min k 1 + 1⟩, ⟨"SELECT 2;".toList, k + 1⟩] := by
  match k with
  | 0 => decide
  | j + 1 =>
    have hcs :
        (String.mk (List.replicate (j + 1) '\n' ++
            "SELECT 1; SELECT 2;".toList)).toList.filter
            (fun c => c != '﻿') =
          List.replicate (j + 1) '\n' ++ "SELECT 1; SELECT 2;".toList := by
      apply filter_bne_of_not_mem
      intro hmem
      rcases List.mem_append.mp hmem with h | h
      · exact absurd (List.eq_of_mem_replicate h) (by decide)
      · exact absurd h (by decide)
    have hmin : min (j + 1) 1 + 1 = 2 := by omega
    simp only [splitSqlStatements]
    rw [hcs, hmin]
    have hlen : (List.replicate (j + 1) '\n' ++
        "SELECT 1; SELECT 2;".toList).length + 1 = (j + 20) + 1 := by
      simp [List.length_append, List.length_replicate]
    rw [hlen, List.replicate_succ, List.cons_append, scanAux_succ_cons,
      show splitStep initState '\n'
          (List.replicate j '\n' ++ "SELECT 1; SELECT 2;".toList) =
        (nlSt 1, List.replicate j '\n' ++ "SELECT 1; SELECT 2;".toList)
        from rfl]
    dsimp only
    rw [scan_replicate_nl j 1 20 ("SELECT 1; SELECT 2;".toList),
      Nat.add_comm 1 j, scan_suffix (j + 1)]
    rfl

/-- Membership is preserved by sorted insertion. -/
theorem mem_insSorted (a x : String) (l : List String) :
    a ∈ insSorted x l ↔ a = x ∨ a ∈ l := by
  induction l with
  | nil => simp [insSorted]
  | cons y ys ih =>
    show a ∈ (if strLe x y then x :: y :: ys else y :: insSorted x ys) ↔ _
    by_cases hs : strLe x y = true
    · rw [if_pos hs]
      simp [List.mem_cons]
    · rw [if_neg hs, List.mem_cons, ih, List.mem_cons]
      tauto

/-- Sorting preserves membership. -/
theorem mem_sortStrings (a : String) (l : List String) :
    a ∈ sortStrings l ↔ a ∈ l := by
  induction l with
  | nil => simp [sortStrings]
  | cons x xs ih =>
    simp only [sortStrings, List.foldr_cons] at ih ⊢
    rw [mem_insSorted, ih, List.mem_cons]

/-- Membership in the deduplication worker. -/
theorem mem_dedupAux (a : String) :
    ∀ (seen l : List String), a ∈ dedupAux seen l ↔ a ∈ l ∧ a ∉ seen := by
  intro seen l
  induction l generalizing seen with
  | nil => simp [dedupAux]
  | cons x xs ih =>
    show a ∈ (if seen.contains x then dedupAux seen xs
        else x :: dedupAux (x :: seen) xs) ↔ _
    by_cases hc : x ∈ seen
    · rw [if_pos (by simpa [List.elem_iff] using hc), ih, List.mem_cons]
      constructor
      · rintro ⟨hm, hsn⟩
        exact ⟨Or.inr hm, hsn⟩
      · rintro ⟨rfl | hm, hsn⟩
        · exact absurd hc hsn
        · exact ⟨hm, hsn⟩
    · rw [if_neg (by simpa [List.elem_iff] using hc)]
      simp only [List.mem_cons, ih]
      by_cases hax : a = x
      · subst hax
        simp [hc]
      · simp only [hax, false_or]

/-- Membership is preserved by deduplication. -/
theorem mem_dedupL (a : String) (l : List String) :
    a ∈ dedupL l ↔ a ∈ l := by
  rw [dedupL, mem_dedupAux]
  simp

/-- When every required column name appears in the (trimmed) dataset
columns, the sorted missing-required list is empty. -/
theorem missingRequired_nil (meta : List ColumnMeta) (dfT : List String)
    (hreq : ∀ c ∈ meta, c.is_nullable = false → c.has_default = false →
      c.is_identity = false → c.name ∈ dfT) :
    sortStrings (dedupL
      (((meta.filter (fun c => !c.is_nullable && !c.has_default &&
          !c.is_identity)).map (fun c => c.name)).filter
        (fun c => !(dfT.contains c)))) = [] := by
  have h0 : ((meta.filter (fun c => !c.is_nullable && !c.has_default &&
      !c.is_identity)).map (fun c => c.name)).filter
        (fun c => !(dfT.contains c)) = [] := by
    apply List.filter_eq_nil_iff.mpr
    intro x hx
    rcases List.mem_map.mp hx with ⟨c, hc, rfl⟩
    rcases List.mem_filter.mp hc with ⟨hcm, hq⟩
    simp only [Bool.and_eq_true, Bool.not_eq_true'] at hq
    have := hreq c hcm hq.1.1 hq.1.2 hq.2
    simp [List.elem_iff, this]
  rw [h0]
  rfl

/-- Bool bridge: list containment as membership. -/
theorem contains_iff {α : Type} [BEq α] [LawfulBEq α] (l : List α) (a : α) :
    l.contains a = true ↔ a ∈ l := List.elem_iff

/-- Bool bridge: failed containment as non-membership. -/
theorem contains_false_iff {α : Type} [BEq α] [LawfulBEq α] (l : List α)
    (a : α) : l.contains a = false ↔ a ∉ l := by
  rw [← contains_iff]
  cases l.contains a <;> simp

/-- C7: when the dataset carries columns absent from the destination table,
drop_extra_columns = true drops them and the validation succeeds, while
drop_extra_columns = false fails naming exactly the extra columns; in every
successful case the aligned column list is the intersection of dataset and
destination columns in the destination's column order. Requires a nonempty
destination and no missing required columns. -/
theorem extra_columns_dropped_or_rejected (schema table : String)
    (meta : List ColumnMeta) (dfCols : List String)
    (hmeta : meta ≠ [])
    (hreq : ∀ c ∈ meta, c.is_nullable = false → c.has_default = false →
      c.is_identity = false → c.name ∈ dfCols.map (fun s => trimS s)) :
    (∃ r, validateAndAlignCols schema table meta dfCols true = .ok r) ∧
      (∀ dx r, validateAndAlignCols schema table meta dfCols dx = .ok r →
        r = (meta.map (fun c => c.name)).filter
          (fun c => (dfCols.map (fun c => trimS c)).contains c)) ∧
      ((∃ c ∈ dfCols.map (fun s => trimS s), c ∉ meta.map (fun c => c.name)) →
        ∃ e, validateAndAlignCols schema table meta dfCols false =
            .error (.extraCols schema table e) ∧
          (∀ c, c ∈ e ↔ c ∈ dfCols.map (fun s => trimS s) ∧
            c ∉ meta.map (fun c => c.name))) := by
  have hie : meta.isEmpty = false := by
    cases meta
    · exact absurd rfl hmeta
    · rfl
  have hmr := missingRequired_nil meta (dfCols.map (fun s => trimS s)) hreq
  refine ⟨?_, ?_, ?_⟩
  · simp only [validateAndAlignCols, hie]
    rw [hmr]
    simp only [List.isEmpty_nil, Bool.not_true, Bool.false_eq_true, if_false,
      Bool.not_false, Bool.and_false, if_true]
    split
    · exact ⟨_, rfl⟩
    · exact ⟨_, rfl⟩
  · intro dx r h
    simp only [validateAndAlignCols, hie] at h
    rw [hmr] at h
    simp only [List.isEmpty_nil, Bool.not_true, Bool.false_eq_true, if_false,
      Bool.not_false, if_true] at h
    split at h
    · exact absurd h (by simp)
    · split at h
      case isTrue hcond =>
        simp only [Except.ok.injEq] at h
        subst h
        apply List.filter_congr
        intro c hcdb
        rw [Bool.eq_iff_iff, contains_iff, contains_iff, List.mem_filter]
        constructor
        · exact fun h1 => h1.1
        · exact fun h1 => ⟨h1, (contains_iff _ _).mpr hcdb⟩
      case isFalse hcond =>
        simp only [Except.ok.injEq] at h
        subst h
        rfl
  · rintro ⟨c, hc, hcn⟩
    have hne : c ∈ sortStrings (dedupL
        ((dfCols.map (fun c => trimS c)).filter
          (fun c => !((meta.map (fun c => c.name)).contains c)))) := by
      rw [mem_sortStrings, mem_dedupL, List.mem_filter]
      exact ⟨hc, by simp [Bool.not_eq_true', contains_false_iff, hcn]⟩
    have hnil : (sortStrings (dedupL
        ((dfCols.map (fun c => trimS c)).filter
          (fun c => !((meta.map (fun c => c.name)).contains c))))).isEmpty =
          false := by
      cases hh : sortStrings (dedupL
          ((dfCols.map (fun c => trimS c)).filter
            (fun c => !((meta.map (fun c => c.name)).contains c))))
      · rw [hh] at hne
        simp at hne
      · rfl
    refine ⟨sortStrings (dedupL ((dfCols.map (fun c => trimS c)).filter
      (fun c => !((meta.map (fun c => c.name)).contains c)))), ?_, ?_⟩
    · simp only [validateAndAlignCols, hie]
      rw [hmr]
      simp only [List.isEmpty_nil, Bool.not_true, Bool.false_eq_true, if_false,
        Bool.not_false, if_true]
      rw [hnil]
      rfl
    · intro x
      rw [mem_sortStrings, mem_dedupL, List.mem_filter]
      simp [Bool.not_eq_true', contains_false_iff]

/-- Witness for the extra-columns theorem at a one-column table with one
extra dataset column. -/
theorem extra_columns_dropped_or_rejected_witness :
    (∃ r, validateAndAlignCols "core" "t" [⟨"a", false, false, false⟩]
        ["a", "x"] true = .ok r) ∧
      (∀ dx r, validateAndAlignCols "core" "t" [⟨"a", false, false, false⟩]
          ["a", "x"] dx = .ok r →
        r = ([⟨"a", false, false, false⟩].map
            (fun c : ColumnMeta => c.name)).filter
          (fun c => (["a", "x"].map (fun c => trimS c)).contains c)) ∧
      ((∃ c ∈ ["a", "x"].map (fun s => trimS s),
          c ∉ [(⟨"a", false, false, false⟩ : ColumnMeta)].map
            (fun c => c.name)) →
        ∃ e, validateAndAlignCols "core" "t" [⟨"a", false, false, false⟩]
            ["a", "x"] false = .error (.extraCols "core" "t" e) ∧
          (∀ c, c ∈ e ↔ c ∈ ["a", "x"].map (fun s => trimS s) ∧
            c ∉ [(⟨"a", false, false, false⟩ : ColumnMeta)].map
              (fun c => c.name))) :=
  extra_columns_dropped_or_rejected "core" "t" [⟨"a", false, false, false⟩]
    ["a", "x"] (by decide) (by decide)

/-- C6: when the destination table requires a column (non-nullable, no
default, not identity) that the dataset does not supply, `_load_one` fails
with an error naming exactly the missing required columns, and the bulk
insert is never reached: no written outcome is possible. -/
theorem missing_required_column_fails_before_write
    (table core ingest audit : String) (df : DFModel) (meta : List ColumnMeta)
    (dx : Bool) (hrows : df.nrows ≠ 0)
    (hmiss : ∃ c ∈ meta, c.is_nullable = false ∧ c.has_default = false ∧
      c.is_identity = false ∧ c.name ∉ df.cols.map (fun s => trimS s)) :
    ∃ cols, loadOne table (some df) true meta core ingest audit dx =
        .error (.missingRequired (schemaForTable table core ingest audit)
          table cols) ∧
      (∀ x, x ∈ cols ↔ ∃ c ∈ meta, c.is_nullable = false ∧
        c.has_default = false ∧ c.is_identity = false ∧ c.name = x ∧
        x ∉ df.cols.map (fun s => trimS s)) ∧
      (∀ sch tb w n, loadOne table (some df) true meta core ingest audit dx ≠
        .ok (.written sch tb w n)) := by
  obtain ⟨c0, hc0m, hn0, hd0, hi0, habs⟩ := hmiss
  have hie : meta.isEmpty = false := by
    cases meta
    · cases hc0m
    · rfl
  have hrows' : (df.nrows == 0) = false := by
    simp [hrows]
  have hcmem : c0.name ∈ sortStrings (dedupL
      (((meta.filter (fun c => !c.is_nullable && !c.has_default &&
          !c.is_identity)).map (fun c => c.name)).filter
        (fun c => !((df.cols.map (fun c => trimS c)).contains c)))) := by
    rw [mem_sortStrings, mem_dedupL, List.mem_filter]
    refine ⟨List.mem_map.mpr ⟨c0, List.mem_filter.mpr ⟨hc0m, by
      simp [hn0, hd0, hi0]⟩, rfl⟩, by
      simp [Bool.not_eq_true', contains_false_iff, habs]⟩
  have hnil : (sortStrings (dedupL
      (((meta.filter (fun c => !c.is_nullable && !c.has_default &&
          !c.is_identity)).map (fun c => c.name)).filter
        (fun c => !((df.cols.map (fun c => trimS c)).contains c))))).isEmpty =
        false := by
    cases hh : sortStrings (dedupL
        (((meta.filter (fun c => !c.is_nullable && !c.has_default &&
            !c.is_identity)).map (fun c => c.name)).filter
          (fun c => !((df.cols.map (fun c => trimS c)).contains c))))
    · rw [hh] at hcmem
      simp at hcmem
    · rfl
  have hval : validateAndAlignCols (schemaForTable table core ingest audit)
      table meta df.cols dx = .error (.missingRequired
        (schemaForTable table core ingest audit) table
        (sortStrings (dedupL
          (((meta.filter (fun c => !c.is_nullable && !c.has_default &&
              !c.is_identity)).map (fun c => c.name)).filter
            (fun c => !((df.cols.map (fun c => trimS c)).contains c)))))) := by
    simp only [validateAndAlignCols, hie]
    rw [hnil]
    rfl
  refine ⟨sortStrings (dedupL
      (((meta.filter (fun c => !c.is_nullable && !c.has_default &&
          !c.is_identity)).map (fun c => c.name)).filter
        (fun c => !((df.cols.map (fun c => trimS c)).contains c)))),
    ?_, ?_, ?_⟩
  · simp only [loadOne, hrows', Bool.false_eq_true, if_false, Bool.not_true,
      hval]
  · intro x
    rw [mem_sortStrings, mem_dedupL, List.mem_filter]
    constructor
    · rintro ⟨hmapped, hnc⟩
      rcases List.mem_map.mp hmapped with ⟨c, hcf, rfl⟩
      rcases List.mem_filter.mp hcf with ⟨hcm, hq⟩
      simp only [Bool.and_eq_true, Bool.not_eq_true'] at hq
      refine ⟨c, hcm, hq.1.1, hq.1.2, hq.2, rfl, ?_⟩
      simpa [Bool.not_eq_true', contains_false_iff] using hnc
    · rintro ⟨c, hcm, hn, hd, hi, rfl, hx⟩
      refine ⟨List.mem_map.mpr ⟨c, List.mem_filter.mpr ⟨hcm, by
        simp [hn, hd, hi]⟩, rfl⟩, by
        simp [Bool.not_eq_true', contains_false_iff, hx]⟩
  · intro sch tb w n
    simp only [loadOne, hrows', Bool.false_eq_true, if_false, Bool.not_true,
      hval]
    simp

/-- Witness for the missing-required-column theorem: a nonempty dataset
without the required column "a". -/
theorem missing_required_column_fails_before_write_witness :
    ∃ cols, loadOne "t" (some ⟨["b"], 1⟩) true [⟨"a", false, false, false⟩]
        "core" "ingest" "audit" true =
        .error (.missingRequired (schemaForTable "t" "core" "ingest" "audit")
          "t" cols) ∧
      (∀ x, x ∈ cols ↔ ∃ c ∈ [(⟨"a", false, false, false⟩ : ColumnMeta)],
        c.is_nullable = false ∧ c.has_default = false ∧ c.is_identity = false ∧
        c.name = x ∧ x ∉ ["b"].map (fun s => trimS s)) ∧
      (∀ sch tb w n, loadOne "t" (some ⟨["b"], 1⟩) true
          [⟨"a", false, false, false⟩] "core" "ingest" "audit" true ≠
        .ok (.written sch tb w n)) :=
  missing_required_column_fails_before_write "t" "core" "ingest" "audit"
    ⟨["b"], 1⟩ [⟨"a", false, false, false⟩] true (by decide)
    ⟨⟨"a", false, false, false⟩, by decide, rfl, rfl, rfl, by decide⟩

/-- C8: under continue-on-error (fail_fast off, not autocommit), a file with
statements [good1, bad, good2] runs each statement in its own savepoint:
good1 and good2 execute and release their savepoints, bad's failure rolls
back exactly its own savepoint and is logged with the file name, its
statement index 2 and its starting line, execution continues, nothing is
re-raised, and the file-level transaction commits at the end. -/
theorem continue_on_error_savepoints (file : String) (g1 b g2 : SQLStmt)
    (oracle : List Char → Bool)
    (h1e : (stripBoth wsChar g1.sql).isEmpty = false)
    (hbe : (stripBoth wsChar b.sql).isEmpty = false)
    (h2e : (stripBoth wsChar g2.sql).isEmpty = false)
    (h1m : ((stripBoth wsChar g1.sql).head? == some '\\') = false)
    (hbm : ((stripBoth wsChar b.sql).head? == some '\\') = false)
    (h2m : ((stripBoth wsChar g2.sql).head? == some '\\') = false)
    (ho1 : oracle (pctEscape (stripBoth wsChar g1.sql)) = true)
    (hob : oracle (pctEscape (stripBoth wsChar b.sql)) = false)
    (ho2 : oracle (pctEscape (stripBoth wsChar g2.sql)) = true) :
    runFile file [g1, b, g2] oracle false false =
      ([.savepoint (spName 1), .exec (pctEscape (stripBoth wsChar g1.sql)),
        .release (spName 1),
        .savepoint (spName 2), .exec (pctEscape (stripBoth wsChar b.sql)),
        .rollbackTo (spName 2), .release (spName 2),
        .logContinue file 2 b.start_line,
        .savepoint (spName 3), .exec (pctEscape (stripBoth wsChar g2.sql)),
        .release (spName 3), .commit], false) := by
  simp [runFile, runStmtsFrom, h1e, hbe, h2e, h1m, hbm, h2m, ho1, hob, ho2]

/-- Witness for the continue-on-error theorem: a concrete three-statement
script whose middle statement fails. -/
theorem continue_on_error_savepoints_witness :
    runFile "02_tables.sql"
        [⟨"CREATE TABLE a (x int)".toList, 1⟩, ⟨"BAD".toList, 3⟩,
          ⟨"CREATE INDEX i ON a(x)".toList, 5⟩]
        (fun s => !(s == "BAD".toList)) false false =
      ([.savepoint (spName 1),
        .exec (pctEscape (stripBoth wsChar "CREATE TABLE a (x int)".toList)),
        .release (spName 1),
        .savepoint (spName 2),
        .exec (pctEscape (stripBoth wsChar "BAD".toList)),
        .rollbackTo (spName 2), .release (spName 2),
        .logContinue "02_tables.sql" 2 3,
        .savepoint (spName 3),
        .exec (pctEscape (stripBoth wsChar "CREATE INDEX i ON a(x)".toList)),
        .release (spName 3), .commit], false) :=
  continue_on_error_savepoints "02_tables.sql"
    ⟨"CREATE TABLE a (x int)".toList, 1⟩ ⟨"BAD".toList, 3⟩
    ⟨"CREATE INDEX i ON a(x)".toList, 5⟩ (fun s => !(s == "BAD".toList))
    (by decide) (by decide) (by decide) (by decide) (by decide) (by decide)
    (by decide) (by decide) (by decide)

/-- Looking up after an insert-or-replace: the inserted key wins, all other
keys are untouched. -/
theorem lookup_dictInsert {α : Type} (d : List (String × α)) (k k' : String)
    (v : α) :
    (dictInsert d k' v).lookup k = if k == k' then some v else d.lookup k := by
  induction d with
  | nil =>
    cases hk : k == k'
    · simp [dictInsert, List.lookup, hk]
    · simp [dictInsert, List.lookup, hk]
  | cons p rest ih =>
    obtain ⟨k0, v0⟩ := p
    unfold dictInsert
    cases h0 : k0 == k'
    · simp only [Bool.false_eq_true, if_false]
      cases hk : k == k0
      · simp only [List.lookup, hk, ih]
      · have hk' : (k == k') = false := by
          have e1 : k = k0 := eq_of_beq hk
          subst e1
          exact h0
        simp only [List.lookup, hk, hk', Bool.false_eq_true, if_false]
    · have e0 : k0 = k' := eq_of_beq h0
      subst e0
      simp only [if_true]
      cases hk : k == k0
      · simp only [List.lookup, hk, Bool.false_eq_true, if_false]
      · simp only [List.lookup, hk, if_true]

/-- A failed by_name lookup means no spec carries that name, duplicates or
not. -/
theorem lookup_byName_none_iff (specs : List TableSpec) (k : String) :
    (byNameDict specs).lookup k = none ↔ ∀ s ∈ specs, s.name ≠ k := by
  suffices h : ∀ (d : List (String × TableSpec)),
      (specs.foldl (fun d s => dictInsert d s.name s) d).lookup k = none ↔
        d.lookup k = none ∧ ∀ s ∈ specs, s.name ≠ k by
    simpa [byNameDict] using h []
  induction specs with
  | nil =>
    intro d
    simp
  | cons s rest ih =>
    intro d
    simp only [List.foldl_cons, ih, lookup_dictInsert, List.forall_mem_cons]
    by_cases hk : k = s.name
    · subst hk
      simp
    · simp only [beq_eq_false_iff_ne.mpr hk, Bool.false_eq_true, if_false]
      have : s.name ≠ k := fun e => hk e.symm
      tauto

/-- Inserting a fresh key appends it. -/
theorem dictInsert_append {α : Type} (d : List (String × α)) (k : String)
    (v : α) (h : ∀ p ∈ d, p.1 ≠ k) : dictInsert d k v = d ++ [(k, v)] := by
  induction d with
  | nil => rfl
  | cons p rest ih =>
    obtain ⟨k0, v0⟩ := p
    have hk0 : k0 ≠ k := h (k0, v0) (List.mem_cons_self _ _)
    unfold dictInsert
    simp only [beq_eq_false_iff_ne.mpr hk0, Bool.false_eq_true, if_false,
      List.cons_append, List.cons.injEq, true_and]
    exact ih (fun p hp => h p (List.mem_cons_of_mem _ hp))

/-- Folding dict inserts of specs with fresh, mutually distinct names builds
the association list of name-value pairs in order. -/
theorem foldl_dictInsert_eq_map {α : Type} (f : TableSpec → α) :
    ∀ (specs : List TableSpec) (d : List (String × α)),
      (∀ s ∈ specs, ∀ p ∈ d, p.1 ≠ s.name) →
      (specs.map (fun s => s.name)).Nodup →
      specs.foldl (fun d s => dictInsert d s.name (f s)) d =
        d ++ specs.map (fun s => (s.name, f s)) := by
  intro specs
  induction specs with
  | nil =>
    intro d _ _
    simp
  | cons s rest ih =>
    intro d hdisj hnodup
    simp only [List.map_cons, List.nodup_cons] at hnodup
    simp only [List.foldl_cons]
    rw [dictInsert_append d s.name (f s)
      (fun p hp => hdisj s (List.mem_cons_self _ _) p hp)]
    rw [ih (d ++ [(s.name, f s)]) ?_ hnodup.2]
    · simp
    · intro t ht p hp
      rcases List.mem_append.mp hp with hp | hp
      · exact hdisj t (List.mem_cons_of_mem _ ht) p hp
      · rcases List.mem_singleton.mp hp with rfl
        intro he
        have he' : s.name = t.name := he
        refine hnodup.1 ?_
        rw [he']
        exact List.mem_map.mpr ⟨t, ht, rfl⟩

/-- Lookup in a name-keyed map of specs is find? by name. -/
theorem lookup_map_pairs {α : Type} (f : TableSpec → α)
    (specs : List TableSpec) (n : String) :
    (specs.map (fun s => (s.name, f s))).lookup n =
      (specs.find? (fun s => s.name == n)).map f := by
  induction specs with
  | nil => rfl
  | cons s rest ih =>
    simp only [List.map_cons, List.lookup, List.find?]
    cases h : n == s.name
    · have h' : (s.name == n) = false := by
        rw [beq_eq_false_iff_ne] at h ⊢
        exact fun e => h e.symm
      simp [h', ih]
    · have h' : (s.name == n) = true := by
        rw [beq_iff_eq] at h ⊢
        exact h.symm
      simp [h']

/-- The dependency validation loop accepts exactly when every dependency
resolves. -/
theorem firstMissingDep_none_iff (byName : List (String × TableSpec)) :
    ∀ specs : List TableSpec,
      firstMissingDep byName specs = none ↔
        ∀ s ∈ specs, ∀ d ∈ s.depends_on, (byName.lookup d).isSome = true := by
  intro specs
  induction specs with
  | nil => simp [firstMissingDep]
  | cons s rest ih =>
    unfold firstMissingDep
    cases hf : s.depends_on.find? (fun d => (byName.lookup d).isNone)
    · simp only [ih, List.forall_mem_cons]
      have hall := List.find?_eq_none.mp hf
      constructor
      · intro h
        refine ⟨fun d hd => ?_, h⟩
        have := hall d hd
        cases hlk : byName.lookup d
        · rw [hlk] at this
          simp at this
        · rfl
      · exact fun h => h.2
    · rename_i val
      have hp := List.find?_some hf
      have hm := List.mem_of_find?_eq_some hf
      refine iff_of_false (by simp) ?_
      rw [List.forall_mem_cons]
      rintro ⟨hs, -⟩
      have h1 := hs val hm
      have hnone := Option.isNone_iff_eq_none.mp hp
      rw [hnone] at h1
      simp at h1

/-- What a reported missing dependency means: the dependency resolves to no
spec and some listed spec requires it. -/
theorem firstMissingDep_some_spec (byName : List (String × TableSpec)) :
    ∀ (specs : List TableSpec) (d r : String),
      firstMissingDep byName specs = some (d, r) →
        byName.lookup d = none ∧
          ∃ s ∈ specs, s.name = r ∧ d ∈ s.depends_on := by
  intro specs
  induction specs with
  | nil =>
    intro d r h
    simp [firstMissingDep] at h
  | cons s rest ih =>
    intro d r h
    unfold firstMissingDep at h
    cases hf : s.depends_on.find? (fun x => (byName.lookup x).isNone)
    · rw [hf] at h
      obtain ⟨h1, s', hs', hname, hmem⟩ := ih d r h
      exact ⟨h1, s', List.mem_cons_of_mem _ hs', hname, hmem⟩
    · rename_i val
      rw [hf] at h
      simp only [Option.some.injEq, Prod.mk.injEq] at h
      obtain ⟨rfl, rfl⟩ := h
      have hp0 := List.find?_some hf
      have hp : (byName.lookup val).isNone = true := hp0
      exact ⟨Option.isNone_iff_eq_none.mp hp,
        s, List.mem_cons_self _ _, rfl, List.mem_of_find?_eq_some hf⟩

/-- When some dependency names no spec, `_toposort` raises the missing
dependency error, naming a dependency that indeed resolves to nothing and
the spec that required it. -/
theorem toposort_missing_dep (specs : List TableSpec)
    (hmiss : ∃ s ∈ specs, ∃ d ∈ s.depends_on, ∀ t ∈ specs, t.name ≠ d) :
    ∃ d r, toposort specs = .error (.missingDep d r) ∧
      (∀ t ∈ specs, t.name ≠ d) ∧
      ∃ s ∈ specs, s.name = r ∧ d ∈ s.depends_on := by
  have hne : firstMissingDep (byNameDict specs) specs ≠ none := by
    rw [ne_eq, firstMissingDep_none_iff]
    intro hall
    obtain ⟨s, hs, d, hd, hmissd⟩ := hmiss
    have h1 := hall s hs d hd
    have h2 := (lookup_byName_none_iff specs d).mpr hmissd
    rw [h2] at h1
    simp at h1
  cases hfm : firstMissingDep (byNameDict specs) specs
  · exact absurd hfm hne
  · rename_i p
    obtain ⟨d, r⟩ := p
    obtain ⟨hnone, s, hs, hname, hdep⟩ :=
      firstMissingDep_some_spec _ specs d r hfm
    refine ⟨d, r, ?_, (lookup_byName_none_iff specs d).mp hnone,
      s, hs, hname, hdep⟩
    simp only [toposort]
    rw [hfm]

/-- Under distinct names, find? by a member's name returns that member. -/
theorem find?_name_eq (specs : List TableSpec)
    (hnodup : (specs.map (fun s => s.name)).Nodup) (s : TableSpec)
    (hs : s ∈ specs) : specs.find? (fun t => t.name == s.name) = some s := by
  induction specs with
  | nil => cases hs
  | cons t rest ih =>
    simp only [List.map_cons, List.nodup_cons] at hnodup
    rcases List.mem_cons.mp hs with rfl | hs'
    · simp [List.find?]
    · have hne : (t.name == s.name) = false := by
        rw [beq_eq_false_iff_ne]
        intro he
        refine hnodup.1 ?_
        rw [he]
        exact List.mem_map.mpr ⟨s, hs', rfl⟩
      simp only [List.find?, hne]
      exact ih hnodup.2 hs'

/-- The incoming dependency set a member spec starts with. -/
theorem origDeps_of_mem (specs : List TableSpec)
    (hnodup : (specs.map (fun s => s.name)).Nodup) (s : TableSpec)
    (hs : s ∈ specs) : origDeps specs s.name = dedupL s.depends_on := by
  unfold origDeps
  rw [find?_name_eq specs hnodup s hs]
  rfl

/-- Containment in a one-element extension. -/
theorem contains_append_singleton (l : List String) (n x : String) :
    (l ++ [n]).contains x = (l.contains x || x == n) := by
  rw [Bool.eq_iff_iff, Bool.or_eq_true]
  simp [contains_iff]

/-- Removing one more ordered name composes the two filters. -/
theorem filter_filter_append (deps orderedN : List String) (n : String) :
    (deps.filter (fun x => !(orderedN.contains x))).filter
        (fun x => x != n) =
      deps.filter (fun x => !((orderedN ++ [n]).contains x)) := by
  rw [List.filter_filter]
  apply List.filter_congr
  intro x _
  rw [contains_append_singleton, Bool.not_or, bne, Bool.and_comm]

/-- Filtering after mapping, for pair-building maps. -/
theorem filter_map_comm {β : Type} (f : TableSpec → β) (q : β → Bool)
    (specs : List TableSpec) :
    (specs.map f).filter q = (specs.filter (fun s => q (f s))).map f := by
  induction specs with
  | nil => rfl
  | cons s rest ih =>
    simp only [List.map_cons, List.filter_cons]
    cases h : q (f s)
    · simp [h, ih]
    · simp [h, ih]

/-- The last slot of a one-element extension. -/
theorem get_append_length (l : List String) (n : String)
    (h : l.length < (l ++ [n]).length) :
    (l ++ [n]).get ⟨l.length, h⟩ = n := by
  induction l with
  | nil => rfl
  | cons a t ih =>
    exact ih (by simp)

/-- The invariant characterization of the Kahn while loop of `_toposort`,
for specs with distinct names: starting from a ready stack that holds
exactly the unordered names with no unresolved dependencies, and an ordered
prefix whose entries all have their dependencies ordered earlier, the loop
ends with an extension of that prefix whose entries still do, and every name
left unordered still has an unresolved dependency. -/
theorem kahnLoop_characterization (specs : List TableSpec)
    (hnodup : (specs.map (fun s => s.name)).Nodup) :
    ∀ (fuel : Nat) (ready orderedN : List String),
      (orderedN ++ ready).Nodup →
      (∀ x ∈ orderedN ++ ready, x ∈ specs.map (fun s => s.name)) →
      (∀ m, m ∈ ready ↔ m ∈ specs.map (fun s => s.name) ∧ m ∉ orderedN ∧
        (origDeps specs m).filter (fun x => !(orderedN.contains x)) = []) →
      (∀ i (hi : i < orderedN.length),
        ∀ d ∈ origDeps specs (orderedN.get ⟨i, hi⟩),
        ∃ j, ∃ hj : j < orderedN.length, j < i ∧ orderedN.get ⟨j, hj⟩ = d) →
      specs.length + 1 ≤ fuel + orderedN.length →
      ∃ orderedF,
        kahnLoop fuel ready orderedN (incomingOf specs orderedN) =
          (orderedF, incomingOf specs orderedF) ∧
        orderedN <+: orderedF ∧ orderedF.Nodup ∧
        (∀ x ∈ orderedF, x ∈ specs.map (fun s => s.name)) ∧
        (∀ i (hi : i < orderedF.length),
          ∀ d ∈ origDeps specs (orderedF.get ⟨i, hi⟩),
          ∃ j, ∃ hj : j < orderedF.length, j < i ∧ orderedF.get ⟨j, hj⟩ = d) ∧
        (∀ m ∈ specs.map (fun s => s.name), m ∉ orderedF →
          (origDeps specs m).filter (fun x => !(orderedF.contains x)) ≠ []) := by
  intro fuel
  induction fuel with
  | zero =>
    intro ready orderedN hnd hsub hready hord hfuel
    exfalso
    have h1 : orderedN.Nodup := hnd.of_append_left
    have h2 : orderedN ⊆ specs.map (fun s => s.name) :=
      fun x hx => hsub x (List.mem_append_left _ hx)
    have h3 : orderedN.length ≤ (specs.map (fun s => s.name)).length :=
      (h1.subperm h2).length_le
    rw [List.length_map] at h3
    omega
  | succ fuel ih =>
    intro ready orderedN hnd hsub hready hord hfuel
    cases ready with
    | nil =>
      rw [List.append_nil] at hnd
      refine ⟨orderedN, rfl, List.prefix_rfl, hnd, ?_, hord, ?_⟩
      · exact fun x hx => hsub x (List.mem_append_left _ hx)
      · intro m hm hnot hfil
        have hmem := (hready m).mpr ⟨hm, hnot, hfil⟩
        cases hmem
    | cons n ready' =>
      obtain ⟨hn_names, hn_not, hn_fil⟩ := (hready n).mp (List.mem_cons_self _ _)
      have hndA : ((orderedN ++ [n]) ++ ready').Nodup := by
        have he : orderedN ++ n :: ready' = (orderedN ++ [n]) ++ ready' := by
          simp
        rw [he] at hnd
        exact hnd
      have hnready' : n ∉ ready' := by
        have h1 : (n :: ready').Nodup := hnd.of_append_right
        exact (List.nodup_cons.mp h1).1
      have hOrdEmpty : ∀ m ∈ orderedN,
          (origDeps specs m).filter (fun x => !(orderedN.contains x)) = [] := by
        intro m hm
        rcases List.mem_iff_get.mp hm with ⟨⟨i, hi⟩, rfl⟩
        apply List.filter_eq_nil_iff.mpr
        intro x hx
        obtain ⟨j, hj, hji, hgj⟩ := hord i hi x hx
        intro hcon
        rw [Bool.not_eq_true', contains_false_iff] at hcon
        exact hcon (List.mem_iff_get.mpr ⟨⟨j, hj⟩, hgj⟩)
      have hinc' : (incomingOf specs orderedN).map
          (fun p => (p.1, p.2.filter (fun x => x != n))) =
          incomingOf specs (orderedN ++ [n]) := by
        unfold incomingOf
        rw [List.map_map]
        apply List.map_congr_left
        intro s _
        simp only [Function.comp]
        rw [filter_filter_append]
      set newlyT := ((incomingOf specs orderedN).filter
        (fun p => p.2.contains n &&
          (p.2.filter (fun x => x != n)).isEmpty)).map Prod.fst with hnewlyT
      have hnewly_mem : ∀ m, m ∈ newlyT ↔ (m ∈ specs.map (fun s => s.name) ∧
          ((origDeps specs m).filter
            (fun x => !(orderedN.contains x))).contains n = true ∧
          ((origDeps specs m).filter
            (fun x => !(orderedN.contains x))).filter
              (fun x => x != n) = []) := by
        intro m
        rw [hnewlyT]
        unfold incomingOf
        rw [filter_map_comm, List.map_map]
        constructor
        · intro hm
          rcases List.mem_map.mp hm with ⟨s, hsf, hname⟩
          rcases List.mem_filter.mp hsf with ⟨hsm, hcond⟩
          simp only [Function.comp] at hname
          rw [Bool.and_eq_true] at hcond
          obtain ⟨hc1, hc2⟩ := hcond
          have hD : origDeps specs m = dedupL s.depends_on := by
            rw [← hname]
            exact origDeps_of_mem specs hnodup s hsm
          refine ⟨by rw [← hname]; exact List.mem_map.mpr ⟨s, hsm, rfl⟩, ?_, ?_⟩
          · rw [hD]; exact hc1
          · rw [hD]; exact List.isEmpty_iff.mp hc2
        · rintro ⟨hmn, hc1, hc2⟩
          rcases List.mem_map.mp hmn with ⟨s, hsm, hname⟩
          have hD : origDeps specs m = dedupL s.depends_on := by
            rw [← hname]
            exact origDeps_of_mem specs hnodup s hsm
          refine List.mem_map.mpr ⟨s, List.mem_filter.mpr ⟨hsm, ?_⟩, hname⟩
          rw [Bool.and_eq_true]
          rw [hD] at hc1 hc2
          exact ⟨hc1, List.isEmpty_iff.mpr hc2⟩
      have hnewly_nodup : newlyT.Nodup := by
        rw [hnewlyT]
        unfold incomingOf
        rw [filter_map_comm, List.map_map]
        have he : (Prod.fst ∘ fun s : TableSpec => (s.name,
            (dedupL s.depends_on).filter (fun x => !(orderedN.contains x)))) =
            fun s : TableSpec => s.name := rfl
        rw [he]
        exact ((List.filter_sublist specs).map (fun s => s.name)).nodup hnodup
      have hnewly_fresh : ∀ m ∈ newlyT, m ∉ orderedN ∧ m ≠ n ∧ m ∉ ready' := by
        intro m hm
        obtain ⟨hmn, hc1, _⟩ := (hnewly_mem m).mp hm
        refine ⟨?_, ?_, ?_⟩
        · intro hmo
          rw [hOrdEmpty m hmo] at hc1
          cases hc1
        · rintro rfl
          rw [hn_fil] at hc1
          cases hc1
        · intro hmr
          obtain ⟨_, _, hfil⟩ := (hready m).mp (List.mem_cons_of_mem _ hmr)
          rw [hfil] at hc1
          cases hc1
      have hnd2 : ((orderedN ++ [n]) ++ (newlyT.reverse ++ ready')).Nodup := by
        rw [List.nodup_append] at hndA ⊢
        obtain ⟨hA, hR, hdisj⟩ := hndA
        refine ⟨hA, ?_, ?_⟩
        · rw [List.nodup_append]
          refine ⟨List.nodup_reverse.mpr hnewly_nodup, hR, ?_⟩
          intro a ha
          rw [List.mem_reverse] at ha
          exact (hnewly_fresh a ha).2.2
        · intro a ha
          rw [List.mem_append, List.mem_reverse]
          rintro (hb | hb)
          · have := hnewly_fresh a hb
            rcases List.mem_append.mp ha with h | h
            · exact this.1 h
            · exact this.2.1 (List.mem_singleton.mp h)
          · exact hdisj ha hb
      have hsub2 : ∀ x ∈ (orderedN ++ [n]) ++ (newlyT.reverse ++ ready'),
          x ∈ specs.map (fun s => s.name) := by
        intro x hx
        rcases List.mem_append.mp hx with h | h
        · rcases List.mem_append.mp h with h | h
          · exact hsub x (List.mem_append_left _ h)
          · rw [List.mem_singleton.mp h]
            exact hn_names
        · rcases List.mem_append.mp h with h | h
          · exact ((hnewly_mem x).mp (List.mem_reverse.mp h)).1
          · exact hsub x (List.mem_append_right _ (List.mem_cons_of_mem _ h))
      have hready2 : ∀ m, m ∈ newlyT.reverse ++ ready' ↔
          (m ∈ specs.map (fun s => s.name) ∧ m ∉ orderedN ++ [n] ∧
          (origDeps specs m).filter
            (fun x => !((orderedN ++ [n]).contains x)) = []) := by
        intro m
        rw [List.mem_append, List.mem_reverse]
        constructor
        · rintro (hm | hm)
          · obtain ⟨hmn, hc1, hf⟩ := (hnewly_mem m).mp hm
            have hno := hnewly_fresh m hm
            refine ⟨hmn, ?_, ?_⟩
            · rw [List.mem_append, List.mem_singleton]
              rintro (h | h)
              · exact hno.1 h
              · exact hno.2.1 h
            · rw [← filter_filter_append]
              exact hf
          · obtain ⟨hmn, hmo, hmf⟩ := (hready m).mp (List.mem_cons_of_mem _ hm)
            have hmn_ne : m ≠ n := by
              rintro rfl
              exact hnready' hm
            refine ⟨hmn, ?_, ?_⟩
            · rw [List.mem_append, List.mem_singleton]
              rintro (h | h)
              · exact hmo h
              · exact hmn_ne h
            · rw [← filter_filter_append, hmf]
              rfl
        · rintro ⟨hmn, hmno, hmf⟩
          rw [List.mem_append, List.mem_singleton] at hmno
          push_neg at hmno
          rw [← filter_filter_append] at hmf
          by_cases hDm : (origDeps specs m).filter
              (fun x => !(orderedN.contains x)) = []
          · right
            have hmem := (hready m).mpr ⟨hmn, hmno.1, hDm⟩
            rcases List.mem_cons.mp hmem with h | h
            · exact absurd h hmno.2
            · exact h
          · left
            apply (hnewly_mem m).mpr
            refine ⟨hmn, ?_, hmf⟩
            rcases hD : (origDeps specs m).filter
                (fun x => !(orderedN.contains x)) with _ | ⟨x, xs⟩
            · exact absurd hD hDm
            · have hxmem : x ∈ (origDeps specs m).filter
                  (fun x => !(orderedN.contains x)) := by
                rw [hD]
                exact List.mem_cons_self _ _
              have hxn := List.filter_eq_nil_iff.mp hmf x hxmem
              have hx : x = n := by
                rw [bne_iff_ne] at hxn
                exact not_not.mp hxn
              rw [contains_iff, ← hx]
              exact List.mem_cons_self _ _
      have hord2 : ∀ i (hi : i < (orderedN ++ [n]).length),
          ∀ d ∈ origDeps specs ((orderedN ++ [n]).get ⟨i, hi⟩),
          ∃ j, ∃ hj : j < (orderedN ++ [n]).length, j < i ∧
            (orderedN ++ [n]).get ⟨j, hj⟩ = d := by
        intro i hi d hd
        have hil : i < orderedN.length + 1 := by
          rw [List.length_append, List.length_singleton] at hi
          exact hi
        by_cases hilt : i < orderedN.length
        · rw [List.get_append i hilt] at hd
          obtain ⟨j, hj, hji, hgj⟩ := hord i hilt d hd
          refine ⟨j, by rw [List.length_append]; omega, hji, ?_⟩
          rw [List.get_append j hj]
          exact hgj
        · have hieq : i = orderedN.length := by omega
          subst hieq
          rw [get_append_length orderedN n hi] at hd
          have hdord : d ∈ orderedN := by
            have hno := List.filter_eq_nil_iff.mp hn_fil d hd
            rw [Bool.not_eq_true', contains_false_iff] at hno
            exact not_not.mp hno
          rcases List.mem_iff_get.mp hdord with ⟨⟨j, hj⟩, hgj⟩
          refine ⟨j, by rw [List.length_append]; omega, by omega, ?_⟩
          rw [List.get_append j hj]
          exact hgj
      have hfuel2 : specs.length + 1 ≤ fuel + (orderedN ++ [n]).length := by
        rw [List.length_append, List.length_singleton]
        omega
      obtain ⟨orderedF, hloop, hpre, hndF, hsubF, hordF, hstuckF⟩ :=
        ih (newlyT.reverse ++ ready') (orderedN ++ [n]) hnd2 hsub2 hready2
          hord2 hfuel2
      have step : kahnLoop (fuel + 1) (n :: ready') orderedN
          (incomingOf specs orderedN) =
          kahnLoop fuel (newlyT.reverse ++ ready') (orderedN ++ [n])
            (incomingOf specs (orderedN ++ [n])) := by
        rw [← hinc']
        rfl
      refine ⟨orderedF, ?_, ?_, hndF, hsubF, hordF, hstuckF⟩
      · rw [step]
        exact hloop
      · exact List.IsPrefix.trans ⟨[n], rfl⟩ hpre

/-- Filtering against the empty ordered list keeps everything. -/
theorem filter_contains_nil (l : List String) :
    l.filter (fun x => !(([] : List String).contains x)) = l := by
  induction l with
  | nil => rfl
  | cons a t ih =>
    simp [List.filter_cons, ih]

/-- Under distinct names and fully resolvable dependencies, `_toposort` runs
its Kahn loop into a final ordered-name list with the characterized
properties, and the result is decided by whether that list covered every
spec. -/
theorem toposort_run (specs : List TableSpec)
    (hnodup : (specs.map (fun s => s.name)).Nodup)
    (hdeps : ∀ s ∈ specs, ∀ d ∈ s.depends_on, ∃ t ∈ specs, t.name = d) :
    ∃ orderedF : List String,
      orderedF.Nodup ∧
      (∀ x ∈ orderedF, x ∈ specs.map (fun s => s.name)) ∧
      (∀ i (hi : i < orderedF.length),
        ∀ d ∈ origDeps specs (orderedF.get ⟨i, hi⟩),
        ∃ j, ∃ hj : j < orderedF.length, j < i ∧ orderedF.get ⟨j, hj⟩ = d) ∧
      (∀ m ∈ specs.map (fun s => s.name), m ∉ orderedF →
        (origDeps specs m).filter (fun x => !(orderedF.contains x)) ≠ []) ∧
      toposort specs =
        (if (orderedF.filterMap
            (fun n => (byNameDict specs).lookup n)).length == specs.length
          then .ok (orderedF.filterMap (fun n => (byNameDict specs).lookup n))
          else .error (.cycle ((incomingOf specs orderedF).filter
            (fun p => !p.2.isEmpty)))) := by
  have hfm : firstMissingDep (byNameDict specs) specs = none := by
    rw [firstMissingDep_none_iff]
    intro s hs d hd
    obtain ⟨t, ht, rfl⟩ := hdeps s hs d hd
    cases hlk : (byNameDict specs).lookup t.name
    · exact absurd rfl ((lookup_byName_none_iff specs t.name).mp hlk t ht)
    · rfl
  have hinc0 : specs.foldl
      (fun d s => dictInsert d s.name (dedupL s.depends_on)) [] =
      incomingOf specs ([] : List String) := by
    rw [foldl_dictInsert_eq_map (fun s => dedupL s.depends_on) specs []
      (fun s _ p hp => absurd hp (List.not_mem_nil p)) hnodup]
    unfold incomingOf
    rw [List.nil_append]
    apply List.map_congr_left
    intro s _
    rw [filter_contains_nil]
  have hready0 : ∀ m, m ∈ (((incomingOf specs ([] : List String)).filter
      (fun p => p.2.isEmpty)).map Prod.fst).reverse ↔
      (m ∈ specs.map (fun s => s.name) ∧ m ∉ ([] : List String) ∧
        (origDeps specs m).filter
          (fun x => !(([] : List String).contains x)) = []) := by
    intro m
    rw [List.mem_reverse]
    unfold incomingOf
    rw [filter_map_comm, List.map_map]
    constructor
    · intro hm
      rcases List.mem_map.mp hm with ⟨s, hsf, hname⟩
      rcases List.mem_filter.mp hsf with ⟨hsm, hcond⟩
      simp only [Function.comp] at hname
      have hD : origDeps specs m = dedupL s.depends_on := by
        rw [← hname]
        exact origDeps_of_mem specs hnodup s hsm
      refine ⟨by rw [← hname]; exact List.mem_map.mpr ⟨s, hsm, rfl⟩,
        List.not_mem_nil m, ?_⟩
      rw [filter_contains_nil, hD]
      rw [filter_contains_nil] at hcond
      exact List.isEmpty_iff.mp hcond
    · rintro ⟨hmn, -, hmf⟩
      rcases List.mem_map.mp hmn with ⟨s, hsm, hname⟩
      have hD : origDeps specs m = dedupL s.depends_on := by
        rw [← hname]
        exact origDeps_of_mem specs hnodup s hsm
      refine List.mem_map.mpr ⟨s, List.mem_filter.mpr ⟨hsm, ?_⟩, hname⟩
      rw [filter_contains_nil] at hmf
      rw [hD] at hmf
      dsimp only
      rw [filter_contains_nil, hmf]
      rfl
  have hnd0 : (([] : List String) ++ (((incomingOf specs
      ([] : List String)).filter
      (fun p => p.2.isEmpty)).map Prod.fst).reverse).Nodup := by
    rw [List.nil_append, List.nodup_reverse]
    unfold incomingOf
    rw [filter_map_comm, List.map_map]
    have he : (Prod.fst ∘ fun s : TableSpec => (s.name,
        (dedupL s.depends_on).filter
          (fun x => !(([] : List String).contains x)))) =
        fun s : TableSpec => s.name := rfl
    rw [he]
    exact ((List.filter_sublist specs).map (fun s => s.name)).nodup hnodup
  have hsub0 : ∀ x ∈ ([] : List String) ++ (((incomingOf specs
      ([] : List String)).filter
      (fun p => p.2.isEmpty)).map Prod.fst).reverse,
      x ∈ specs.map (fun s => s.name) := by
    intro x hx
    rw [List.nil_append] at hx
    exact ((hready0 x).mp hx).1
  have hord0 : ∀ i (hi : i < ([] : List String).length),
      ∀ d ∈ origDeps specs (([] : List String).get ⟨i, hi⟩),
      ∃ j, ∃ hj : j < ([] : List String).length, j < i ∧
        ([] : List String).get ⟨j, hj⟩ = d := by
    intro i hi
    simp at hi
  have hfuel0 : specs.length + 1 ≤ (specs.length + 1) +
      ([] : List String).length := by
    simp
  obtain ⟨orderedF, hloop, -, hndF, hsubF, hordF, hstuckF⟩ :=
    kahnLoop_characterization specs hnodup (specs.length + 1)
      ((((incomingOf specs ([] : List String)).filter
        (fun p => p.2.isEmpty)).map Prod.fst).reverse) [] hnd0 hsub0 hready0
      hord0 hfuel0
  refine ⟨orderedF, hndF, hsubF, hordF, hstuckF, ?_⟩
  simp only [toposort, hfm, hinc0, hloop]

/-- filterMap of an everywhere-some function is a map. -/
theorem filterMap_all_some {α β : Type} (f : α → Option β) (g : α → β)
    (l : List α) (h : ∀ x ∈ l, f x = some (g x)) :
    l.filterMap f = l.map g := by
  induction l with
  | nil => rfl
  | cons x xs ih =>
    rw [List.filterMap_cons, h x (List.mem_cons_self _ _), List.map_cons,
      ih (fun y hy => h y (List.mem_cons_of_mem _ hy))]

/-- Under distinct names, the by_name dict looks up by find?. -/
theorem lookup_byName_eq_find (specs : List TableSpec)
    (hnodup : (specs.map (fun s => s.name)).Nodup) (n : String) :
    (byNameDict specs).lookup n = specs.find? (fun s => s.name == n) := by
  have h1 : byNameDict specs = specs.map (fun s => (s.name, s)) := by
    unfold byNameDict
    rw [foldl_dictInsert_eq_map (fun s => s) specs []
      (fun s _ p hp => absurd hp (List.not_mem_nil p)) hnodup]
    rfl
  rw [h1, lookup_map_pairs (fun s => s)]
  cases specs.find? (fun s => s.name == n) <;> rfl

/-- C4: for a collection of table specs with distinct names, every
dependency naming a listed spec, and an acyclic dependency graph (witnessed
by a rank function that decreases from a spec to each of its dependencies),
LoadPlan construction succeeds, keeps the specs, and places every spec in
the resolved order after positions holding all of the specs its depends_on
entries name. -/
theorem loadplan_acyclic_success (specs : List TableSpec)
    (hnodup : (specs.map (fun s => s.name)).Nodup)
    (hdeps : ∀ s ∈ specs, ∀ d ∈ s.depends_on, ∃ t ∈ specs, t.name = d)
    (hacyc : ∃ rank : String → Nat, ∀ s ∈ specs, ∀ d ∈ s.depends_on,
      rank d < rank s.name) :
    ∃ plan : LoadPlan, LoadPlan.build specs = .ok plan ∧
      plan.specs = specs ∧
      (∀ s ∈ specs, ∃ j, ∃ hj : j < plan.order.length,
        plan.order.get ⟨j, hj⟩ = s ∧
        ∀ d ∈ s.depends_on, ∃ i, ∃ hi : i < plan.order.length, i < j ∧
          (plan.order.get ⟨i, hi⟩).name = d) := by
  obtain ⟨rank, hrank⟩ := hacyc
  obtain ⟨orderedF, hndF, hsubF, hordF, hstuckF, htp⟩ :=
    toposort_run specs hnodup hdeps
  have hall : ∀ m ∈ specs.map (fun s => s.name), m ∈ orderedF := by
    intro m0 hm0
    by_contra hnot0
    have key : ∀ k m, m ∈ specs.map (fun s => s.name) → m ∉ orderedF →
        rank m ≠ k := by
      intro k
      induction k using Nat.strong_induction_on with
      | _ k ihk =>
        intro m hm hnot hrk
        rcases hfd : (origDeps specs m).filter
            (fun x => !(orderedF.contains x)) with _ | ⟨d, ds⟩
        · exact hstuckF m hm hnot hfd
        · have hdmem : d ∈ (origDeps specs m).filter
              (fun x => !(orderedF.contains x)) := by
            rw [hfd]
            exact List.mem_cons_self _ _
          have hd1 : d ∈ origDeps specs m := (List.mem_filter.mp hdmem).1
          have hd2 : d ∉ orderedF := by
            have h2 := (List.mem_filter.mp hdmem).2
            rw [Bool.not_eq_true', contains_false_iff] at h2
            exact h2
          rcases List.mem_map.mp hm with ⟨s, hs, rfl⟩
          rw [origDeps_of_mem specs hnodup s hs, mem_dedupL] at hd1
          have hdn : d ∈ specs.map (fun s => s.name) := by
            obtain ⟨t, ht, rfl⟩ := hdeps s hs d hd1
            exact List.mem_map.mpr ⟨t, ht, rfl⟩
          have hlt : rank d < rank s.name := hrank s hs d hd1
          subst hrk
          exact ihk (rank d) hlt d hdn hd2 rfl
    exact key (rank m0) m0 hm0 hnot0 rfl
  have hlookup_mem : ∀ s ∈ specs, (byNameDict specs).lookup s.name = some s :=
    fun s hs => by
      rw [lookup_byName_eq_find specs hnodup, find?_name_eq specs hnodup s hs]
  have hlook : ∀ n ∈ orderedF, (byNameDict specs).lookup n =
      some (((byNameDict specs).lookup n).getD
        ⟨n, none, [], LoadMode.INSERT⟩) := by
    intro n hn
    rcases List.mem_map.mp (hsubF n hn) with ⟨s, hs, rfl⟩
    rw [hlookup_mem s hs]
    rfl
  have hmapped : orderedF.filterMap (fun n => (byNameDict specs).lookup n) =
      orderedF.map (fun n => ((byNameDict specs).lookup n).getD
        ⟨n, none, [], LoadMode.INSERT⟩) :=
    filterMap_all_some _ _ _ hlook
  have hlen1 : orderedF.length = specs.length := by
    have h3 := (hndF.subperm hsubF).length_le
    have h4 := (hnodup.subperm hall).length_le
    rw [List.length_map] at h3 h4
    omega
  have hlen2 : (orderedF.filterMap
      (fun n => (byNameDict specs).lookup n)).length = specs.length := by
    rw [hmapped, List.length_map, hlen1]
  split at htp
  case isFalse hcond =>
    exfalso
    rw [hlen2] at hcond
    simp at hcond
  case isTrue hcond =>
  refine ⟨⟨specs, orderedF.filterMap (fun n => (byNameDict specs).lookup n)⟩,
    ?_, rfl, ?_⟩
  · unfold LoadPlan.build
    rw [htp]
    rfl
  · intro s hs
    have hsn : s.name ∈ orderedF := hall _ (List.mem_map.mpr ⟨s, hs, rfl⟩)
    rcases List.mem_iff_get.mp hsn with ⟨⟨j, hj⟩, hgj⟩
    have hlenOrd : (orderedF.filterMap
        (fun n => (byNameDict specs).lookup n)).length = orderedF.length := by
      rw [hmapped, List.length_map]
    have hgetPlan : ∀ i (hi : i < orderedF.length)
        (hi2 : i < (orderedF.filterMap
          (fun n => (byNameDict specs).lookup n)).length),
        (orderedF.filterMap (fun n => (byNameDict specs).lookup n)).get
            ⟨i, hi2⟩ =
          ((byNameDict specs).lookup (orderedF.get ⟨i, hi⟩)).getD
            ⟨orderedF.get ⟨i, hi⟩, none, [], LoadMode.INSERT⟩ := by
      intro i hi hi2
      have := List.get_of_eq hmapped ⟨i, hi2⟩
      rw [this]
      rw [List.get_map]
    refine ⟨j, by rw [hlenOrd]; exact hj, ?_, ?_⟩
    · rw [hgetPlan j hj, hgj, hlookup_mem s hs]
      rfl
    · intro d hd
      have hd' : d ∈ origDeps specs (orderedF.get ⟨j, hj⟩) := by
        rw [hgj, origDeps_of_mem specs hnodup s hs, mem_dedupL]
        exact hd
      obtain ⟨i, hi, hij, hgi⟩ := hordF j hj d hd'
      refine ⟨i, by rw [hlenOrd]; exact hi, hij, ?_⟩
      rw [hgetPlan i hi, hgi]
      obtain ⟨t, ht, rfl⟩ := hdeps s hs d hd
      rw [hlookup_mem t ht]
      rfl

/-- Witness for plan construction at specs A, B depends on A, C depends on
A and B. -/
theorem loadplan_acyclic_success_witness :
    ∃ plan : LoadPlan,
      LoadPlan.build [⟨"A", none, [], LoadMode.INSERT⟩,
          ⟨"B", none, ["A"], LoadMode.INSERT⟩,
          ⟨"C", none, ["A", "B"], LoadMode.INSERT⟩] = .ok plan ∧
        plan.specs = [⟨"A", none, [], LoadMode.INSERT⟩,
          ⟨"B", none, ["A"], LoadMode.INSERT⟩,
          ⟨"C", none, ["A", "B"], LoadMode.INSERT⟩] ∧
        (∀ s ∈ [(⟨"A", none, [], LoadMode.INSERT⟩ : TableSpec),
            ⟨"B", none, ["A"], LoadMode.INSERT⟩,
            ⟨"C", none, ["A", "B"], LoadMode.INSERT⟩],
          ∃ j, ∃ hj : j < plan.order.length,
            plan.order.get ⟨j, hj⟩ = s ∧
            ∀ d ∈ s.depends_on, ∃ i, ∃ hi : i < plan.order.length, i < j ∧
              (plan.order.get ⟨i, hi⟩).name = d) :=
  loadplan_acyclic_success
    [⟨"A", none, [], LoadMode.INSERT⟩, ⟨"B", none, ["A"], LoadMode.INSERT⟩,
      ⟨"C", none, ["A", "B"], LoadMode.INSERT⟩]
    (by decide) (by decide)
    ⟨fun n => if n = "C" then 2 else if n = "B" then 1 else 0, by decide⟩

/-- One outgoing edge exists from the start of any dependency path. -/
theorem transGen_first_edge (specs : List TableSpec) (a b : String)
    (htg : Relation.TransGen (depEdge specs) a b) :
    ∃ c, depEdge specs a c := by
  induction htg using Relation.TransGen.head_induction_on with
  | base hab => exact ⟨_, hab⟩
  | ih hac _ _ => exact ⟨_, hac⟩

/-- C5: LoadPlan construction fails when a depends_on entry names no spec,
reporting such a dependency and the spec requiring it; and, for specs with
distinct names and all dependencies present, it fails when the dependency
graph has a cycle, with every name lying on a cycle enumerated among the
keys of the reported unresolved remainder. -/
theorem loadplan_failure_reporting (specs : List TableSpec) :
    ((∃ s ∈ specs, ∃ d ∈ s.depends_on, ∀ t ∈ specs, t.name ≠ d) →
      ∃ d r, LoadPlan.build specs = .error (.missingDep d r) ∧
        (∀ t ∈ specs, t.name ≠ d) ∧
        ∃ s ∈ specs, s.name = r ∧ d ∈ s.depends_on) ∧
      ((specs.map (fun s => s.name)).Nodup →
        (∀ s ∈ specs, ∀ d ∈ s.depends_on, ∃ t ∈ specs, t.name = d) →
        (∃ n, Relation.TransGen (depEdge specs) n n) →
        ∃ rem, LoadPlan.build specs = .error (.cycle rem) ∧
          ∀ m, Relation.TransGen (depEdge specs) m m →
            m ∈ rem.map Prod.fst) := by
  constructor
  · intro hmiss
    obtain ⟨d, r, htp, hnone, hspec⟩ := toposort_missing_dep specs hmiss
    refine ⟨d, r, ?_, hnone, hspec⟩
    unfold LoadPlan.build
    rw [htp]
    rfl
  · rintro hnodup hdeps ⟨n0, hcyc0⟩
    obtain ⟨orderedF, hndF, hsubF, hordF, hstuckF, htp⟩ :=
      toposort_run specs hnodup hdeps
    have hedge_names : ∀ a b, depEdge specs a b →
        a ∈ specs.map (fun s => s.name) ∧ b ∈ origDeps specs a := by
      rintro a b ⟨s, hs, rfl, hb⟩
      refine ⟨List.mem_map.mpr ⟨s, hs, rfl⟩, ?_⟩
      rw [origDeps_of_mem specs hnodup s hs, mem_dedupL]
      exact hb
    have hdesc : ∀ a b, Relation.TransGen (depEdge specs) a b →
        ∀ j (hj : j < orderedF.length), orderedF.get ⟨j, hj⟩ = a →
        ∃ i, ∃ hi : i < orderedF.length, i < j ∧ orderedF.get ⟨i, hi⟩ = b := by
      intro a b htg
      induction htg using Relation.TransGen.head_induction_on with
      | base hab =>
        intro j hj hga
        have hb := (hedge_names _ _ hab).2
        rw [← hga] at hb
        exact hordF j hj b hb
      | ih hac htcb ihc =>
        intro j hj hga
        have hc := (hedge_names _ _ hac).2
        rw [← hga] at hc
        obtain ⟨jc, hjc, hjcj, hgc⟩ := hordF j hj _ hc
        obtain ⟨i, hi, hijc, hgi⟩ := ihc jc hjc hgc
        exact ⟨i, hi, by omega, hgi⟩
    have hunord : ∀ m, Relation.TransGen (depEdge specs) m m →
        m ∉ orderedF := by
      intro m hm hmem
      rcases List.mem_iff_get.mp hmem with ⟨⟨j, hj⟩, hgj⟩
      obtain ⟨i, hi, hij, hgi⟩ := hdesc m m hm j hj hgj
      have hinj := List.nodup_iff_injective_get.mp hndF
      have heq : (⟨i, hi⟩ : Fin orderedF.length) = ⟨j, hj⟩ := hinj (by
        rw [hgi, hgj])
      have : i = j := by
        cases heq
        rfl
      omega
    have hmem_names : ∀ m, Relation.TransGen (depEdge specs) m m →
        m ∈ specs.map (fun s => s.name) := by
      intro m hm
      obtain ⟨c, hc⟩ := transGen_first_edge specs m m hm
      exact (hedge_names _ _ hc).1
    have hlt : orderedF.length < specs.length := by
      have h3 := (hndF.subperm hsubF).length_le
      rw [List.length_map] at h3
      rcases Nat.lt_or_ge orderedF.length specs.length with h | h
      · exact h
      · exfalso
        have hperm : orderedF.Perm (specs.map (fun s => s.name)) :=
          (hndF.subperm hsubF).perm_of_length_le (by
            rw [List.length_map]
            omega)
        have hn0o : n0 ∈ orderedF :=
          hperm.mem_iff.mpr (hmem_names n0 hcyc0)
        exact hunord n0 hcyc0 hn0o
    have hflen : (orderedF.filterMap
        (fun n => (byNameDict specs).lookup n)).length ≤ orderedF.length :=
      List.length_filterMap_le _ _
    split at htp
    case isTrue hcond =>
      exfalso
      have := eq_of_beq hcond
      omega
    case isFalse hcond =>
    refine ⟨(incomingOf specs orderedF).filter (fun p => !p.2.isEmpty), ?_, ?_⟩
    · unfold LoadPlan.build
      rw [htp]
      rfl
    · intro m hm
      have hmn := hmem_names m hm
      have hmnot := hunord m hm
      have hfil := hstuckF m hmn hmnot
      rcases List.mem_map.mp hmn with ⟨s, hs, rfl⟩
      rw [origDeps_of_mem specs hnodup s hs] at hfil
      apply List.mem_map.mpr
      refine ⟨(s.name, (dedupL s.depends_on).filter
        (fun x => !(orderedF.contains x))), ?_, rfl⟩
      apply List.mem_filter.mpr
      constructor
      · unfold incomingOf
        exact List.mem_map.mpr ⟨s, hs, rfl⟩
      · cases hcl : (dedupL s.depends_on).filter
            (fun x => !(orderedF.contains x))
        · exact absurd hcl hfil
        · rfl

/-- Witness for failure reporting at the X-and-Y mutual dependency cycle:
plan construction fails with a cycle error whose keys include both X and Y. -/
theorem loadplan_failure_reporting_witness :
    ∃ rem, LoadPlan.build [⟨"X", none, ["Y"], LoadMode.INSERT⟩,
        ⟨"Y", none, ["X"], LoadMode.INSERT⟩] = .error (.cycle rem) ∧
      "X" ∈ rem.map Prod.fst ∧ "Y" ∈ rem.map Prod.fst := by
  have hXY : depEdge [⟨"X", none, ["Y"], LoadMode.INSERT⟩,
      ⟨"Y", none, ["X"], LoadMode.INSERT⟩] "X" "Y" :=
    ⟨⟨"X", none, ["Y"], LoadMode.INSERT⟩, by simp, rfl, by simp⟩
  have hYX : depEdge [⟨"X", none, ["Y"], LoadMode.INSERT⟩,
      ⟨"Y", none, ["X"], LoadMode.INSERT⟩] "Y" "X" :=
    ⟨⟨"Y", none, ["X"], LoadMode.INSERT⟩, by simp, rfl, by simp⟩
  have hcycX : Relation.TransGen (depEdge [⟨"X", none, ["Y"], LoadMode.INSERT⟩,
      ⟨"Y", none, ["X"], LoadMode.INSERT⟩]) "X" "X" :=
    Relation.TransGen.head hXY (Relation.TransGen.single hYX)
  have hcycY : Relation.TransGen (depEdge [⟨"X", none, ["Y"], LoadMode.INSERT⟩,
      ⟨"Y", none, ["X"], LoadMode.INSERT⟩]) "Y" "Y" :=
    Relation.TransGen.head hYX (Relation.TransGen.single hXY)
  obtain ⟨rem, hb, hall⟩ :=
    (loadplan_failure_reporting [⟨"X", none, ["Y"], LoadMode.INSERT⟩,
      ⟨"Y", none, ["X"], LoadMode.INSERT⟩]).2 (by decide) (by decide)
      ⟨"X", hcycX⟩
  exact ⟨rem, hb, hall "X" hcycX, hall "Y" hcycY⟩
